import Mathlib

/-!
# Verification of `augment_markdown.py`

Shallow embedding of the document rewriter in `src/augment_markdown.py`.
Strings are modelled as `List Char`.  The regular expressions at the top of
the source file are embedded as deterministic matchers (each of the six
patterns is anchored with `^...$` and, as analysed below, admits no
backtracking ambiguity, so a greedy run-based parse is exact).  Character
classes follow the source: `[a-zA-Z]`, `[A-Z]` and `\d` are the ASCII
ranges, and `\s` / `str.strip` / `str.split` use Python's whitespace set
(the ASCII whitespace characters together with the common Unicode
whitespace code points recognised by CPython).
-/

namespace Augment

/-- Strings are lists of characters. -/
abbrev Str := List Char

/-- Shorthand to write concrete strings in examples and theorems. -/
def str (s : String) : Str := s.toList

/-- Python whitespace (`\s` in `re`, and the default set for `str.strip`
and `str.split`): ASCII whitespace, the C0 separators, and the Unicode
space code points recognised by CPython. -/
def pyIsSpace (c : Char) : Bool :=
  c = ' ' || c = '\t' || c = '\n' || c = '\r' || c = '\x0b' || c = '\x0c' ||
  c = '\x1c' || c = '\x1d' || c = '\x1e' || c = '\x1f' ||
  c = '\x85' || c = '\xa0' || c = ' ' ||
  (' ' ≤ c && c ≤ ' ') ||
  c = ' ' || c = ' ' || c = ' ' || c = ' ' || c = '　'

/-- The line boundaries of `str.splitlines`. -/
def isLineBreak (c : Char) : Bool :=
  c = '\n' || c = '\r' || c = '\x0b' || c = '\x0c' ||
  c = '\x1c' || c = '\x1d' || c = '\x1e' ||
  c = '\x85' || c = ' ' || c = ' '

/-- ASCII `[A-Z]`. -/
def isUpperAZ (c : Char) : Bool := 'A' ≤ c && c ≤ 'Z'

/-- ASCII `[a-zA-Z]`. -/
def isAsciiLetter (c : Char) : Bool :=
  ('A' ≤ c && c ≤ 'Z') || ('a' ≤ c && c ≤ 'z')

/-- ASCII `\d`, i.e. `[0-9]`. -/
def isDigitC (c : Char) : Bool := '0' ≤ c && c ≤ '9'

/-- The class `[a-zA-Z\s]` used by `COLON_HEADING_RE` and
`NUMBERED_HEADING_RE`. -/
def alphaWS (c : Char) : Bool := isAsciiLetter c || pyIsSpace c

/-- The class `[A-Z\s]` used by `ALLCAPS_HEADING_RE`. -/
def upperWS (c : Char) : Bool := isUpperAZ c || pyIsSpace c

/-- Python `str.strip()`: drop leading and trailing whitespace. -/
def strip (s : Str) : Str :=
  ((s.dropWhile pyIsSpace).reverse.dropWhile pyIsSpace).reverse

/-- Python `str.startswith(pre)`. -/
def startswith (s pre : Str) : Bool := pre.isPrefixOf s

/-- Python `str.rstrip(':')`: drop trailing colons. -/
def rstripColon (s : Str) : Str :=
  (s.reverse.dropWhile (fun c => c = ':')).reverse

/-- Python ASCII lowercasing (`str.lower` restricted to ASCII letters,
which is all the inputs this program feeds it). -/
def asciiLower (s : Str) : Str :=
  s.map (fun c => if isUpperAZ c then Char.ofNat (c.toNat + 32) else c)

/-- Python `sub in s`: substring containment. -/
def isSubstr (w s : Str) : Bool :=
  w.isPrefixOf s ||
    (match s with
     | [] => false
     | _ :: tl => isSubstr w tl)

/-- Helper for `splitWS`: accumulate the current word (reversed). -/
def splitWSAux : Str → Str → List Str
  | [], acc => if acc = [] then [] else [acc.reverse]
  | c :: tl, acc =>
    if pyIsSpace c then
      if acc = [] then splitWSAux tl [] else acc.reverse :: splitWSAux tl []
    else splitWSAux tl (c :: acc)

/-- Python `str.split()` (no argument): split on whitespace runs, dropping
empty pieces. -/
def splitWS (s : Str) : List Str := splitWSAux s []

/-- Helper for `splitlines`: walk the string accumulating the current
line (reversed); a line-break closes the line, with `\r\n` consumed as a
single boundary.  The first argument is fuel; one unit is spent per
character (two characters for CRLF), so `s.length` units always
suffice. -/
def splitlinesFuel : Nat → Str → Str → List Str
  | _, [], acc => if acc = [] then [] else [acc.reverse]
  | fuel + 1, c :: tl, acc =>
    if isLineBreak c then
      if c = '\r' ∧ tl.head? = some '\n' then
        acc.reverse :: splitlinesFuel fuel tl.tail []
      else acc.reverse :: splitlinesFuel fuel tl []
    else splitlinesFuel fuel tl (c :: acc)
  | 0, _ :: _, _ => []

/-- Python `str.splitlines()`: split at line boundaries (`\r\n` counts as
one boundary); a trailing boundary does not produce a final empty line. -/
def splitlines (s : Str) : List Str := splitlinesFuel s.length s []

/-! ## The regular expressions

```
HEADING_RE          = ^(#{1,6})\s+(.*)$
BOLD_HEADING_RE     = ^\*\*([^*]+)\*\*\s*$
COLON_HEADING_RE    = ^([A-Z][a-zA-Z\s]{3,}):\s*$
DATE_HEADING_RE     = ^(20\d{2}\s+\d{2}\s+\d{2})$
NUMBERED_HEADING_RE = ^(\d{1,2})\.\s+([A-Z][a-zA-Z\s]{3,})$
ALLCAPS_HEADING_RE  = ^([A-Z][A-Z\s]{8,})$
```

Each matcher returns the capture groups of `re.match` when the (fully
anchored) pattern matches.  Greedy runs are exact here: every quantified
class is disjoint from the character that must follow it, so backtracking
can never produce a different parse.
-/

/-- `HEADING_RE`: returns (number of `#`, second capture group).
The maximal leading `#`-run must have length 1..6 and be followed by at
least one whitespace character; group 2 is the rest after the greedy
whitespace run. -/
def heading_match (s : Str) : Option (Nat × Str) :=
  let hs := s.takeWhile (fun c => c = '#')
  let rest := s.dropWhile (fun c => c = '#')
  if 1 ≤ hs.length && hs.length ≤ 6 then
    match rest with
    | c :: _ => if pyIsSpace c then some (hs.length, rest.dropWhile pyIsSpace) else none
    | [] => none
  else none

/-- `BOLD_HEADING_RE`: returns the inner capture `[^*]+`. -/
def bold_match (s : Str) : Option Str :=
  match s with
  | '*' :: '*' :: rest =>
    let inner := rest.takeWhile (fun c => c ≠ '*')
    let after := rest.dropWhile (fun c => c ≠ '*')
    if inner = [] then none
    else
      match after with
      | '*' :: '*' :: tl => if tl.all pyIsSpace then some inner else none
      | _ => none
  | _ => none

/-- `COLON_HEADING_RE`: returns the capture `[A-Z][a-zA-Z\s]{3,}`
(which by construction cannot contain a colon). -/
def colon_match (s : Str) : Option Str :=
  match s with
  | c :: rest =>
    if isUpperAZ c then
      let run := rest.takeWhile alphaWS
      let after := rest.dropWhile alphaWS
      if 3 ≤ run.length then
        match after with
        | ':' :: tl => if tl.all pyIsSpace then some (c :: run) else none
        | _ => none
      else none
    else none
  | [] => none

/-- `DATE_HEADING_RE`: the whole line is `20\d{2}\s+\d{2}\s+\d{2}`;
the capture is the whole line. -/
def date_match (s : Str) : Option Str :=
  match s with
  | '2' :: '0' :: d1 :: d2 :: rest =>
    if isDigitC d1 && isDigitC d2 then
      let ws1 := rest.takeWhile pyIsSpace
      let r1 := rest.dropWhile pyIsSpace
      if ws1 = [] then none
      else
        match r1 with
        | e1 :: e2 :: rest2 =>
          if isDigitC e1 && isDigitC e2 then
            let ws2 := rest2.takeWhile pyIsSpace
            let r2 := rest2.dropWhile pyIsSpace
            if ws2 = [] then none
            else
              match r2 with
              | [f1, f2] => if isDigitC f1 && isDigitC f2 then some s else none
              | _ => none
          else none
        | _ => none
    else none
  | _ => none

/-- `NUMBERED_HEADING_RE`: returns (digit group, title group). -/
def numbered_match (s : Str) : Option (Str × Str) :=
  let ds := s.takeWhile isDigitC
  let rest := s.dropWhile isDigitC
  if 1 ≤ ds.length && ds.length ≤ 2 then
    match rest with
    | '.' :: r1 =>
      let ws := r1.takeWhile pyIsSpace
      let r2 := r1.dropWhile pyIsSpace
      if ws = [] then none
      else
        match r2 with
        | c :: tail =>
          if isUpperAZ c && tail.all alphaWS && 3 ≤ tail.length then
            some (ds, c :: tail)
          else none
        | [] => none
    | _ => none
  else none

/-- `ALLCAPS_HEADING_RE`: the whole line is `[A-Z][A-Z\s]{8,}`;
the capture is the whole line. -/
def allcaps_match (s : Str) : Option Str :=
  match s with
  | c :: rest =>
    if isUpperAZ c && rest.all upperWS && 8 ≤ rest.length then some s else none
  | [] => none

/-! ## The pattern classifier (`check_header_patterns`) -/

/-- The six heading conventions. -/
inductive PatternType where
  | markdown | bold | colon | date | numbered | allcaps
deriving DecidableEq, Repr

/-- The block of `check_header_patterns` for markdown headers.  The third
component records `len(match.group(1))`, the only use the caller makes of
the returned match object (it is 0 for the other kinds). -/
def check_markdown (line : Str) : Option (PatternType × Str × Nat) :=
  match heading_match line with
  | some (n, g2) => some (.markdown, strip g2, n)
  | none => none

/-- The block of `check_header_patterns` for bold headers. -/
def check_bold (line : Str) : Option (PatternType × Str × Nat) :=
  match bold_match line with
  | some inner => some (.bold, strip inner, 0)
  | none => none

/-- The block of `check_header_patterns` for colon headers, including its
rejection filter (length at least 5, not starting with "http"). -/
def check_colon (line : Str) : Option (PatternType × Str × Nat) :=
  match colon_match line with
  | some g1 =>
    let text := strip g1
    if 5 ≤ text.length && !(startswith (asciiLower text) (str "http")) then
      some (.colon, text, 0)
    else none
  | none => none

/-- The block of `check_header_patterns` for date headers. -/
def check_date (line : Str) : Option (PatternType × Str × Nat) :=
  match date_match line with
  | some g1 => some (.date, strip g1, 0)
  | none => none

/-- The block of `check_header_patterns` for numbered headers, including
its rejection filter; the heading text is `f"{m.group(1)}. {text}"`. -/
def check_numbered (line : Str) : Option (PatternType × Str × Nat) :=
  match numbered_match line with
  | some (g1, g2) =>
    let text := strip g2
    if 5 ≤ text.length then some (.numbered, g1 ++ '.' :: ' ' :: text, 0)
    else none
  | none => none

/-- The denylist of `check_header_patterns` for all-caps headers. -/
def common_non_headers : List Str :=
  [str "TASK", str "TODO", str "NOTE", str "IMPORTANT", str "WARNING", str "ERROR"]

/-- The block of `check_header_patterns` for all-caps headers, including
its rejection filter.  Note `word in text` is Python substring
containment, and `len(text.split()) <= 6` bounds the word count. -/
def check_allcaps (line : Str) : Option (PatternType × Str × Nat) :=
  match allcaps_match line with
  | some g1 =>
    let text := strip g1
    if !(common_non_headers.any (fun w => isSubstr w text)) &&
        (splitWS text).length ≤ 6 then
      some (.allcaps, text, 0)
    else none
  | none => none

/-- `check_header_patterns(line)`: the six blocks are tried in source
order; each block returns as soon as it matches and passes its filter. -/
def check_header_patterns (line : Str) : Option (PatternType × Str × Nat) :=
  match check_markdown line with
  | some r => some r
  | none =>
  match check_bold line with
  | some r => some r
  | none =>
  match check_colon line with
  | some r => some r
  | none =>
  match check_date line with
  | some r => some r
  | none =>
  match check_numbered line with
  | some r => some r
  | none =>
  match check_allcaps line with
  | some r => some r
  | none => none

/-! ## The level resolvers -/

/-- The keyword list of `determine_header_level_by_context`. -/
def meeting_keywords : List Str :=
  [str "meeting", str "discussion", str "call", str "update",
   str "task", str "notes", str "todo"]

/-- `determine_header_level_by_context(breadcrumb, pattern_type, text)`. -/
def determine_header_level_by_context
    (breadcrumb : List Str) (pattern_type : PatternType) (text : Str) : Nat :=
  match pattern_type with
  | .date => if breadcrumb = [] then 1 else 2
  | .colon =>
    if meeting_keywords.any (fun k => isSubstr k (asciiLower text)) then
      if breadcrumb ≠ [] then min (breadcrumb.length + 1) 3 else 2
    else
      if breadcrumb = [] then 2 else min (breadcrumb.length + 1) 3
  | .numbered => if breadcrumb ≠ [] then min (breadcrumb.length + 1) 4 else 2
  | .allcaps => if breadcrumb = [] then 1 else 2
  | _ => 2

/-- The lookahead loop of `determine_bold_header_level`, over the (at most
nine) lines following the current one.  Each line is stripped first; the
loop skips blank lines, stops with success on a list marker or a
two-space indent (the latter can never fire on a stripped line), and
stops with failure on a `**` or `#` start. -/
def bold_lookahead : List Str → Bool
  | [] => false
  | l :: rest =>
    let line := strip l
    if line = [] then bold_lookahead rest
    else if startswith line (str "- ") || startswith line (str "* ") ||
            startswith line (str "  ") then true
    else if startswith line (str "**") || startswith line (str "#") then false
    else bold_lookahead rest

/-- `determine_bold_header_level(breadcrumb, lines, current_index)`.  The
Python loop `for j in range(current_index + 1, min(current_index + 10,
len(lines)))` inspects the nine lines after the current one, here passed
as the suffix `rest = lines[current_index+1:]`. -/
def determine_bold_header_level (breadcrumb : List Str) (rest : List Str) : Nat :=
  if breadcrumb = [] then 1
  else if bold_lookahead (rest.take 9) then min (breadcrumb.length + 1) 3
  else 2

/-! ## Aliases and the metadata block -/

/-- The character class of `re.sub(r'[\(\)\[\]\{\}:,\.\"\'*_`]', ' ', text)`. -/
def isAliasSpecial (c : Char) : Bool :=
  c = '(' || c = ')' || c = '[' || c = ']' || c = '{' || c = '}' ||
  c = ':' || c = ',' || c = '.' || c = '\"' || c = '\'' || c = '*' ||
  c = '_' || c = '`'

/-- Helper for `removeUnderlineTag`, spending one unit of fuel per
character examined (so `s.length` units suffice). -/
def removeUnderlineTagFuel : Nat → Str → Str
  | _, [] => []
  | f + 1, c :: tl =>
    if (str "{.underline}").isPrefixOf (c :: tl) then
      removeUnderlineTagFuel f ((c :: tl).drop 12)
    else c :: removeUnderlineTagFuel f tl
  | 0, s => s

/-- `re.sub(r'\{\.underline\}', '', base)`: remove every occurrence of the
literal `{.underline}` (a no-op on its actual input, whose braces were
already replaced by spaces). -/
def removeUnderlineTag (s : Str) : Str := removeUnderlineTagFuel s.length s

/-- `guess_aliases_from_heading(text)`. -/
def guess_aliases_from_heading (text : Str) : List Str :=
  let base := text.map (fun c => if isAliasSpecial c then ' ' else c)
  let base := removeUnderlineTag base
  let terms := (splitWS base).filter (fun t => 3 ≤ t.length)
  terms.take 5

/-- Lexicographic comparison by code point, as Python compares strings. -/
def strLe : Str → Str → Bool
  | [], _ => true
  | _ :: _, [] => false
  | a :: as_, b :: bs => if a < b then true else if b < a then false else strLe as_ bs

/-- Keep the first occurrence of each string. -/
def dedup : List Str → List Str
  | [] => []
  | x :: xs => x :: (dedup xs).filter (fun y => y ≠ x)

/-- Insertion of a string into a sorted list. -/
def insertSorted (x : Str) : List Str → List Str
  | [] => [x]
  | y :: ys => if strLe x y then x :: y :: ys else y :: insertSorted x ys

/-- Python `sorted`: insertion sort by `strLe`. -/
def pySorted : List Str → List Str
  | [] => []
  | x :: xs => insertSorted x (pySorted xs)

/-- The newline string. -/
def nl : Str := ['\n']

/-- Python `sep.join(xs)`. -/
def pyJoin (sep : Str) : List Str → Str
  | [] => []
  | [x] => x
  | x :: xs => x ++ sep ++ pyJoin sep xs

/-- `build_header_block(doc_title, rel_path, breadcrumb, aliases)`. -/
def build_header_block (doc_title rel_path : Str)
    (breadcrumb aliases : List Str) : Str :=
  let breadcrumb_str :=
    if breadcrumb ≠ [] then pyJoin (str " > ") breadcrumb else doc_title
  let aliases_str :=
    (pyJoin (str ", ")
      (pySorted (dedup (aliases.filter (fun a => a ≠ []))))).take 120
  let ls := [str "[DocTitle: " ++ doc_title ++ str "]",
             str "[Path: " ++ rel_path ++ str "]",
             str "[Section: " ++ breadcrumb_str ++ str "]"]
  let ls := if aliases_str ≠ [] then ls ++ [str "[Aliases: " ++ aliases_str ++ str "]"] else ls
  pyJoin nl ls ++ nl ++ nl

/-! ## `convert_to_proper_header` -/

/-- `convert_to_proper_header(text, level, pattern_type)`. -/
def convert_to_proper_header (text : Str) (level : Nat)
    (pattern_type : PatternType) : Str :=
  let headerHashes := List.replicate level '#'
  match pattern_type with
  | .date => headerHashes ++ ' ' :: text
  | .colon => headerHashes ++ ' ' :: rstripColon text
  | .numbered => headerHashes ++ ' ' :: text
  | _ => headerHashes ++ ' ' :: text

/-! ## The document rewriter (`process_markdown`) -/

/-- The classification-plus-level step of `process_markdown` (source lines
186-195): classify the line, then resolve its level — from the `#` count
for markdown, from the lookahead for bold, from
`determine_header_level_by_context` otherwise. -/
def level_for (pt : PatternType) (heading_text : Str) (n : Nat)
    (breadcrumb rest : List Str) : Nat :=
  match pt with
  | .markdown => n
  | .bold => determine_bold_header_level breadcrumb rest
  | _ => determine_header_level_by_context breadcrumb pt heading_text

def resolved (line : Str) (breadcrumb : List Str) (rest : List Str) :
    Option (PatternType × Str × Nat) :=
  match check_header_patterns line with
  | none => none
  | some (pt, heading_text, n) =>
    some (pt, heading_text, level_for pt heading_text n breadcrumb rest)

/-- The `while len(breadcrumb) >= level: breadcrumb.pop()` loop, run with
fuel (the loop pops one element per iteration, so `b.length` steps
suffice). -/
def popWhileGeFuel : Nat → List Str → Nat → List Str
  | 0, b, _ => b
  | fuel + 1, b, level =>
    if level ≤ b.length ∧ b ≠ [] then popWhileGeFuel fuel b.dropLast level else b

/-- The breadcrumb truncation loop of `process_markdown` (lines 203-204). -/
def pop_while_ge (b : List Str) (level : Nat) : List Str :=
  popWhileGeFuel b.length b level

/-- The breadcrumb/title update of `process_markdown` (lines 197-205):
returns the new breadcrumb stack and the new document title. -/
def update_breadcrumb (breadcrumb : List Str) (doc_title : Str)
    (level : Nat) (heading_text : Str) : List Str × Str :=
  if level = 1 then
    let dt := if heading_text ≠ [] then heading_text else doc_title
    ([if heading_text ≠ [] then heading_text else dt], dt)
  else
    (pop_while_ge breadcrumb level ++ [heading_text], doc_title)

/-- The peek of `process_markdown` (lines 217-222): the stripped first
non-blank line among the remaining lines, or the empty string. -/
def next_nonempty : List Str → Str
  | [] => []
  | l :: rest => if strip l ≠ [] then strip l else next_nonempty rest

/-- The main loop of `process_markdown`, walking the lines in order and
carrying the breadcrumb stack and the document title.  Returns the `out`
list together with the final breadcrumb and title. -/
def processLines (lines : List Str) (breadcrumb : List Str)
    (doc_title : Str) (rel_path : Str) : List Str × List Str × Str :=
  match lines with
  | [] => ([], breadcrumb, doc_title)
  | line :: rest =>
    match resolved line breadcrumb rest with
    | none =>
      let r := processLines rest breadcrumb doc_title rel_path
      (line :: r.1, r.2)
    | some (pt, heading_text, level) =>
      let bd := update_breadcrumb breadcrumb doc_title level heading_text
      let breadcrumb := bd.1
      let doc_title := bd.2
      let proper_header :=
        if pt = .markdown then line
        else convert_to_proper_header heading_text level pt
      let already_injected := startswith (next_nonempty rest) (str "[DocTitle:")
      let r := processLines rest breadcrumb doc_title rel_path
      if already_injected then (proper_header :: r.1, r.2)
      else
        (proper_header ::
          build_header_block doc_title rel_path breadcrumb
            (guess_aliases_from_heading heading_text) :: r.1, r.2)

/-- The return expression of `process_markdown` (line 234):
`"\n".join(out) + ("\n" if not out or out[-1] != "" else "")`. -/
def joinFix (out : List Str) : Str :=
  pyJoin nl out ++ (if out = [] ∨ out.getLast? ≠ some [] then nl else [])

/-- `process_markdown(md_text, rel_path, file_stem)`. -/
def process_markdown (md_text rel_path file_stem : Str) : Str :=
  joinFix (processLines (splitlines md_text) [] file_stem rel_path).1

/-! ## Helper lemmas about the string model -/

theorem mem_of_mem_strip {c : Char} {s : Str} (h : c ∈ strip s) : c ∈ s := by
  unfold strip at h
  rw [List.mem_reverse] at h
  have h1 := (List.dropWhile_sublist (l := (s.dropWhile pyIsSpace).reverse) pyIsSpace).subset h
  rw [List.mem_reverse] at h1
  exact (List.dropWhile_sublist (l := s) pyIsSpace).subset h1

/-- The stripped string is a prefix of the string with its leading
whitespace removed. -/
theorem strip_prefix_dropWhile (s : Str) : strip s <+: s.dropWhile pyIsSpace := by
  have hsuf : ((s.dropWhile pyIsSpace).reverse.dropWhile pyIsSpace) <:+
      (s.dropWhile pyIsSpace).reverse := List.dropWhile_suffix pyIsSpace
  have hpre := List.reverse_prefix.mpr hsuf
  rwa [List.reverse_reverse] at hpre

/-- The first character of a stripped string is never whitespace. -/
theorem strip_head_not_space {s : Str} {c : Char} {t : Str} (h : strip s = c :: t) :
    pyIsSpace c = false := by
  have hpre := strip_prefix_dropWhile s
  rw [h] at hpre
  obtain ⟨u, hu⟩ := hpre
  have hd : s.dropWhile pyIsSpace = c :: (t ++ u) := by rw [← hu]; simp
  have hne : s.dropWhile pyIsSpace ≠ [] := by rw [hd]; simp
  have hh := List.head_dropWhile_not pyIsSpace s hne
  have : (s.dropWhile pyIsSpace).head hne = c := by simp [hd]
  rwa [this] at hh

theorem dropWhile_eq_self_of_not {p : Char → Bool} {l : Str}
    (h : ∀ a ∈ l, p a = false) : l.dropWhile p = l := by
  cases l with
  | nil => rfl
  | cons a t => simp [List.dropWhile_cons, h a (by simp)]

theorem rstripColon_eq_self {t : Str} (h : ':' ∉ t) : rstripColon t = t := by
  unfold rstripColon
  rw [dropWhile_eq_self_of_not, List.reverse_reverse]
  intro a ha
  rw [List.mem_reverse] at ha
  rw [decide_eq_false_iff_not]
  rintro rfl
  exact h ha

/-! ## Inversion lemmas for the classifier blocks -/

theorem check_markdown_inv {line : Str} {r : PatternType × Str × Nat}
    (h : check_markdown line = some r) :
    ∃ n g2, heading_match line = some (n, g2) ∧ r = (.markdown, strip g2, n) := by
  unfold check_markdown at h
  cases h1 : heading_match line with
  | none => rw [h1] at h; exact absurd h (by simp)
  | some v =>
    rw [h1] at h
    exact ⟨v.1, v.2, rfl, by simpa using h.symm⟩

theorem check_bold_inv {line : Str} {r : PatternType × Str × Nat}
    (h : check_bold line = some r) :
    ∃ inner, bold_match line = some inner ∧ r = (.bold, strip inner, 0) := by
  unfold check_bold at h
  cases h1 : bold_match line with
  | none => rw [h1] at h; exact absurd h (by simp)
  | some v => rw [h1] at h; exact ⟨v, rfl, by simpa using h.symm⟩

theorem check_colon_inv {line : Str} {r : PatternType × Str × Nat}
    (h : check_colon line = some r) :
    ∃ g1, colon_match line = some g1 ∧ r = (.colon, strip g1, 0) ∧
      5 ≤ (strip g1).length ∧
      startswith (asciiLower (strip g1)) (str "http") = false := by
  unfold check_colon at h
  cases h1 : colon_match line with
  | none => rw [h1] at h; exact absurd h (by simp)
  | some v =>
    simp only [h1] at h
    split at h
    · next hf =>
        rw [Bool.and_eq_true, Bool.not_eq_true', decide_eq_true_iff] at hf
        exact ⟨v, rfl, by simpa using h.symm, hf.1, hf.2⟩
    · exact absurd h (by simp)

theorem check_date_inv {line : Str} {r : PatternType × Str × Nat}
    (h : check_date line = some r) :
    ∃ g1, date_match line = some g1 ∧ r = (.date, strip g1, 0) := by
  unfold check_date at h
  cases h1 : date_match line with
  | none => rw [h1] at h; exact absurd h (by simp)
  | some v => rw [h1] at h; exact ⟨v, rfl, by simpa using h.symm⟩

theorem check_numbered_inv {line : Str} {r : PatternType × Str × Nat}
    (h : check_numbered line = some r) :
    ∃ g1 g2, numbered_match line = some (g1, g2) ∧
      r = (.numbered, g1 ++ '.' :: ' ' :: strip g2, 0) ∧ 5 ≤ (strip g2).length := by
  unfold check_numbered at h
  cases h1 : numbered_match line with
  | none => rw [h1] at h; exact absurd h (by simp)
  | some v =>
    simp only [h1] at h
    split at h
    · next hf => exact ⟨v.1, v.2, by simp, by simpa using h.symm, hf⟩
    · exact absurd h (by simp)

theorem check_allcaps_inv {line : Str} {r : PatternType × Str × Nat}
    (h : check_allcaps line = some r) :
    ∃ g1, allcaps_match line = some g1 ∧ r = (.allcaps, strip g1, 0) ∧
      (common_non_headers.any (fun w => isSubstr w (strip g1))) = false ∧
      (splitWS (strip g1)).length ≤ 6 := by
  unfold check_allcaps at h
  cases h1 : allcaps_match line with
  | none => rw [h1] at h; exact absurd h (by simp)
  | some v =>
    simp only [h1] at h
    split at h
    · next hf =>
        rw [Bool.and_eq_true, Bool.not_eq_true', decide_eq_true_iff] at hf
        exact ⟨v, rfl, by simpa using h.symm, hf.1, hf.2⟩
    · exact absurd h (by simp)

/-- The chain of `check_header_patterns` returns the value of one of the
six blocks. -/
theorem check_chain_cases {line : Str} {r : PatternType × Str × Nat}
    (h : check_header_patterns line = some r) :
    check_markdown line = some r ∨ check_bold line = some r ∨
    check_colon line = some r ∨ check_date line = some r ∨
    check_numbered line = some r ∨ check_allcaps line = some r := by
  unfold check_header_patterns at h
  cases h1 : check_markdown line with
  | some v => simp only [h1] at h; exact Or.inl h
  | none =>
  simp only [h1] at h
  cases h2 : check_bold line with
  | some v => simp only [h2] at h; exact Or.inr (Or.inl h)
  | none =>
  simp only [h2] at h
  cases h3 : check_colon line with
  | some v => simp only [h3] at h; exact Or.inr (Or.inr (Or.inl h))
  | none =>
  simp only [h3] at h
  cases h4 : check_date line with
  | some v => simp only [h4] at h; exact Or.inr (Or.inr (Or.inr (Or.inl h)))
  | none =>
  simp only [h4] at h
  cases h5 : check_numbered line with
  | some v =>
    simp only [h5] at h
    exact Or.inr (Or.inr (Or.inr (Or.inr (Or.inl h))))
  | none =>
  simp only [h5] at h
  cases h6 : check_allcaps line with
  | some v =>
    simp only [h6] at h
    exact Or.inr (Or.inr (Or.inr (Or.inr (Or.inr h))))
  | none => simp only [h6] at h; exact absurd h (by simp)

/-! ## C7: priority order of the classifier -/

/-- When the first five blocks fail, the chain's value is the all-caps
block's. -/
theorem check_chain_last {line : Str} (h1 : check_markdown line = none)
    (h2 : check_bold line = none) (h3 : check_colon line = none)
    (h4 : check_date line = none) (h5 : check_numbered line = none) :
    check_header_patterns line = check_allcaps line := by
  simp only [check_header_patterns, h1, h2, h3, h4, h5]
  cases h6 : check_allcaps line <;> simp [h6]

/-- C7: the classifier evaluates the six heading patterns in the fixed
priority order markdown > bold > colon > date > numbered > allcaps and
returns the first block that matches and passes its rejection filter; a
line satisfying more than one pattern is classified as the
earliest-checked kind. -/
theorem C7_priority_order (line : Str) :
    (∀ r, check_markdown line = some r → check_header_patterns line = some r) ∧
    (check_markdown line = none →
      ∀ r, check_bold line = some r → check_header_patterns line = some r) ∧
    (check_markdown line = none → check_bold line = none →
      ∀ r, check_colon line = some r → check_header_patterns line = some r) ∧
    (check_markdown line = none → check_bold line = none → check_colon line = none →
      ∀ r, check_date line = some r → check_header_patterns line = some r) ∧
    (check_markdown line = none → check_bold line = none → check_colon line = none →
      check_date line = none →
      ∀ r, check_numbered line = some r → check_header_patterns line = some r) ∧
    (check_markdown line = none → check_bold line = none → check_colon line = none →
      check_date line = none → check_numbered line = none →
      check_header_patterns line = check_allcaps line) := by
  refine ⟨?_, ?_, ?_, ?_, ?_, ?_⟩
  · intro r hr; simp [check_header_patterns, hr]
  · intro h1 r hr; simp [check_header_patterns, h1, hr]
  · intro h1 h2 r hr; simp [check_header_patterns, h1, h2, hr]
  · intro h1 h2 h3 r hr; simp [check_header_patterns, h1, h2, h3, hr]
  · intro h1 h2 h3 h4 r hr; simp [check_header_patterns, h1, h2, h3, h4, hr]
  · intro h1 h2 h3 h4 h5
    exact check_chain_last h1 h2 h3 h4 h5

/-- Witness for C7 at a concrete line: "2024 03 15" fails the first three
blocks and is classified by the date block. -/
theorem C7_priority_order_witness :
    check_header_patterns (str "2024 03 15") = some (.date, str "2024 03 15", 0) :=
  (C7_priority_order (str "2024 03 15")).2.2.2.1 (by decide) (by decide) (by decide)
    (.date, str "2024 03 15", 0) (by decide)

/-! ## C8: markdown passthrough -/

/-- C8: a line matching the canonical markdown-heading form is emitted
byte-for-byte unchanged by the rewriter loop (a metadata block may follow
it). -/
theorem C8_markdown_passthrough (l : Str) (rest b : List Str) (dt p : Str)
    (n : Nat) (g2 : Str) (h : heading_match l = some (n, g2)) :
    ∃ tail, (processLines (l :: rest) b dt p).1 = l :: tail := by
  have hc : check_header_patterns l = some (.markdown, strip g2, n) := by
    unfold check_header_patterns check_markdown
    rw [h]
  have hr : resolved l b rest = some (.markdown, strip g2, n) := by
    unfold resolved
    rw [hc]
    rfl
  by_cases ha : startswith (next_nonempty rest) (str "[DocTitle:") = true
  · exact ⟨(processLines rest (update_breadcrumb b dt n (strip g2)).1
        (update_breadcrumb b dt n (strip g2)).2 p).1, by simp [processLines, hr, ha]⟩
  · exact ⟨build_header_block (update_breadcrumb b dt n (strip g2)).2 p
        (update_breadcrumb b dt n (strip g2)).1
        (guess_aliases_from_heading (strip g2)) ::
      (processLines rest (update_breadcrumb b dt n (strip g2)).1
        (update_breadcrumb b dt n (strip g2)).2 p).1, by simp [processLines, hr, ha]⟩

/-- Witness for C8 at a concrete document. -/
theorem C8_markdown_passthrough_witness :
    ∃ tail, (processLines [str "# Hi"] [] (str "d") (str "p")).1 = str "# Hi" :: tail :=
  C8_markdown_passthrough (str "# Hi") [] [] (str "d") (str "p") 1 (str "Hi") (by decide)

/-! ## C9: emission of non-markdown headings -/

/-- The colon capture `[A-Z][a-zA-Z\s]{3,}` cannot contain a colon. -/
theorem colon_match_no_colon {line g1 : Str} (h : colon_match line = some g1) :
    ':' ∉ g1 := by
  cases line with
  | nil => simp [colon_match] at h
  | cons c rest =>
    simp only [colon_match] at h
    split at h
    case isFalse => exact absurd h (by simp)
    case isTrue hu =>
      split at h
      case isFalse => exact absurd h (by simp)
      case isTrue h3 =>
        split at h
        case h_2 => exact absurd h (by simp)
        case h_1 tl heq =>
          split at h
          case isFalse => exact absurd h (by simp)
          case isTrue hall =>
            have hg : g1 = c :: rest.takeWhile alphaWS := by simpa using h.symm
            subst hg
            intro hmem
            rcases List.mem_cons.mp hmem with hc | hr
            · rw [← hc] at hu; exact absurd hu (by decide)
            · exact absurd (List.mem_takeWhile_imp hr) (by decide)

/-- C9: for every non-markdown heading kind the emitted header is exactly
`level` hash characters, a space, and the extracted text unchanged; the
colon kind's trailing-colon strip is vacuous because a colon heading's
extracted text can never contain a colon. -/
theorem C9_nonmarkdown_emission (line : Str) (k : PatternType) (t : Str) (n L : Nat)
    (h : check_header_patterns line = some (k, t, n)) (hk : k ≠ .markdown) :
    convert_to_proper_header t L k = List.replicate L '#' ++ ' ' :: t ∧
    (k = .colon → ':' ∉ t) := by
  have hcolon : k = .colon → ':' ∉ t := by
    rintro rfl
    rcases check_chain_cases h with h' | h' | h' | h' | h' | h'
    · obtain ⟨n', g2, -, he⟩ := check_markdown_inv h'; simp at he
    · obtain ⟨i, -, he⟩ := check_bold_inv h'; simp at he
    · obtain ⟨g1, hm, he, -, -⟩ := check_colon_inv h'
      obtain ⟨ht, -⟩ : t = strip g1 ∧ n = 0 := by simpa using he
      intro hmem
      rw [ht] at hmem
      exact colon_match_no_colon hm (mem_of_mem_strip hmem)
    · obtain ⟨g1, -, he⟩ := check_date_inv h'; simp at he
    · obtain ⟨g1, g2, -, he, -⟩ := check_numbered_inv h'; simp at he
    · obtain ⟨g1, -, he, -, -⟩ := check_allcaps_inv h'; simp at he
  refine ⟨?_, hcolon⟩
  cases k with
  | markdown => exact absurd rfl hk
  | colon => simp [convert_to_proper_header, rstripColon_eq_self (hcolon rfl)]
  | date => simp [convert_to_proper_header]
  | numbered => simp [convert_to_proper_header]
  | bold => simp [convert_to_proper_header]
  | allcaps => simp [convert_to_proper_header]

/-- Witness for C9 at a concrete colon heading. -/
theorem C9_nonmarkdown_emission_witness :
    convert_to_proper_header (str "Meeting notes") 2 .colon =
      List.replicate 2 '#' ++ ' ' :: str "Meeting notes" :=
  (C9_nonmarkdown_emission (str "Meeting notes:") .colon (str "Meeting notes") 0 2
    (by decide) (by decide)).1

/-! ## C10: numbered headings keep their numeric prefix -/

/-- Structural inversion of `numbered_match`: the digit capture is the
maximal leading digit run, of length 1 or 2. -/
theorem numbered_match_inv {line ds title : Str}
    (h : numbered_match line = some (ds, title)) :
    ds = line.takeWhile isDigitC ∧ 1 ≤ ds.length ∧ ds.length ≤ 2 := by
  simp only [numbered_match] at h
  split at h
  case isFalse => exact absurd h (by simp)
  case isTrue hg =>
    rw [Bool.and_eq_true, decide_eq_true_iff, decide_eq_true_iff] at hg
    split at h
    case h_2 => exact absurd h (by simp)
    case h_1 r1 heq =>
      split at h
      case isTrue => exact absurd h (by simp)
      case isFalse hw =>
        split at h
        case h_2 => exact absurd h (by simp)
        case h_1 c tail heq2 =>
          split at h
          case isFalse => exact absurd h (by simp)
          case isTrue hf =>
            obtain ⟨hds, -⟩ : line.takeWhile isDigitC = ds ∧ c :: tail = title := by
              simpa using h
            exact ⟨hds.symm, hds ▸ hg.1, hds ▸ hg.2⟩

/-- C10: a numbered heading's extracted text is the full
`"<number>. <title>"` string — number, period and all — and this full
string is what the emission and the breadcrumb update use; the length
filter applies to the title part only (so `"1. Abcd"`, whose full text is
longer than 5, is still rejected). -/
theorem C10_numbered_heading (line t : Str) (n : Nat)
    (h : check_header_patterns line = some (.numbered, t, n)) :
    (∃ ds title, numbered_match line = some (ds, title) ∧
        t = ds ++ '.' :: ' ' :: strip title ∧ 5 ≤ (strip title).length ∧
        1 ≤ ds.length ∧ ds.length ≤ 2 ∧ ∀ c ∈ ds, isDigitC c = true) ∧
    (∀ L, convert_to_proper_header t L .numbered = List.replicate L '#' ++ ' ' :: t) ∧
    (∀ b, 2 ≤ determine_header_level_by_context b .numbered t) ∧
    (∀ b dt L, 2 ≤ L → ((update_breadcrumb b dt L t).1).getLast? = some t) ∧
    check_header_patterns (str "1. Abcd") = none := by
  refine ⟨?_, ?_, ?_, ?_, by decide⟩
  · rcases check_chain_cases h with h' | h' | h' | h' | h' | h'
    · obtain ⟨n', g2, -, he⟩ := check_markdown_inv h'; simp at he
    · obtain ⟨i, -, he⟩ := check_bold_inv h'; simp at he
    · obtain ⟨g1, -, he, -, -⟩ := check_colon_inv h'; simp at he
    · obtain ⟨g1, -, he⟩ := check_date_inv h'; simp at he
    · obtain ⟨g1, g2, hm, he, hlen⟩ := check_numbered_inv h'
      obtain ⟨ht, -⟩ : t = g1 ++ '.' :: ' ' :: strip g2 ∧ n = 0 := by simpa using he
      obtain ⟨hds, h1, h2⟩ := numbered_match_inv hm
      refine ⟨g1, g2, hm, ht, hlen, h1, h2, ?_⟩
      intro c hc
      rw [hds] at hc
      exact List.mem_takeWhile_imp hc
    · obtain ⟨g1, -, he, -, -⟩ := check_allcaps_inv h'; simp at he
  · intro L; simp [convert_to_proper_header]
  · intro b
    cases b with
    | nil => simp [determine_header_level_by_context]
    | cons x xs =>
      simp only [determine_header_level_by_context]
      rw [if_pos (by simp)]
      simp only [List.length_cons]
      omega
  · intro b dt L hL
    unfold update_breadcrumb
    rw [if_neg (by omega)]
    exact List.getLast?_concat _

/-! ## Matcher-failure lemmas

Small lemmas showing that a line whose first character has the wrong shape
cannot match a given pattern; used for C5 and for the idempotence
analysis. -/

theorem heading_match_cons_ne {c : Char} {t : Str} (hc : c ≠ '#') :
    heading_match (c :: t) = none := by
  simp [heading_match, List.takeWhile_cons, hc]

theorem bold_match_cons_ne {c : Char} {t : Str} (hc : c ≠ '*') :
    bold_match (c :: t) = none := by
  unfold bold_match
  split
  · next rest heq =>
      exact absurd (show c = '*' by injection heq) hc
  · rfl

theorem colon_match_cons_notupper {c : Char} {t : Str} (hc : isUpperAZ c = false) :
    colon_match (c :: t) = none := by
  simp [colon_match, hc]

theorem date_match_cons_ne {c : Char} {t : Str} (hc : c ≠ '2') :
    date_match (c :: t) = none := by
  unfold date_match
  split
  · next d1 d2 rest heq =>
      exact absurd (show c = '2' by injection heq) hc
  · rfl

theorem numbered_match_cons_notdigit {c : Char} {t : Str} (hc : isDigitC c = false) :
    numbered_match (c :: t) = none := by
  simp [numbered_match, List.takeWhile_cons, hc]

theorem allcaps_match_cons_notupper {c : Char} {t : Str} (hc : isUpperAZ c = false) :
    allcaps_match (c :: t) = none := by
  simp [allcaps_match, hc]

/-! ## C5: the all-caps denylist -/

theorem allcaps_match_inv {line g : Str} (h : allcaps_match line = some g) :
    g = line ∧ ∃ c rest, line = c :: rest ∧ isUpperAZ c = true ∧
      rest.all upperWS = true ∧ 8 ≤ rest.length := by
  cases line with
  | nil => simp [allcaps_match] at h
  | cons c rest =>
    simp only [allcaps_match] at h
    split at h
    · next hc =>
        rw [Bool.and_eq_true, Bool.and_eq_true, decide_eq_true_iff] at hc
        exact ⟨by simpa using h.symm, c, rest, rfl, hc.1.1, hc.1.2, hc.2⟩
    · exact absurd h (by simp)

theorem not_digit_of_upper {c : Char} (h : isUpperAZ c = true) : isDigitC c = false := by
  rw [Bool.eq_false_iff]
  intro hd
  rw [isUpperAZ, Bool.and_eq_true] at h
  rw [isDigitC, Bool.and_eq_true] at hd
  have h1 : 'A' ≤ c := of_decide_eq_true h.1
  have h2 : c ≤ '9' := of_decide_eq_true hd.2
  exact absurd (le_trans h1 h2) (by decide)

theorem alphaWS_of_upperWS {c : Char} (h : upperWS c = true) : alphaWS c = true := by
  simp only [upperWS, isUpperAZ, Bool.or_eq_true, Bool.and_eq_true] at h
  simp only [alphaWS, isAsciiLetter, isUpperAZ, Bool.or_eq_true, Bool.and_eq_true]
  tauto

theorem colon_match_none_of_upperline {c : Char} {rest : Str}
    (hrest : rest.all upperWS = true) : colon_match (c :: rest) = none := by
  have hd : rest.dropWhile alphaWS = [] :=
    List.dropWhile_eq_nil_iff.mpr
      (fun x hx => alphaWS_of_upperWS (List.all_eq_true.mp hrest x hx))
  simp only [colon_match]
  split
  · split
    · rw [hd]
    · rfl
  · rfl

/-- C5, counterexample: "NOTEWORTHY" matches the all-caps pattern, contains
no denylist word as a whitespace-separated whole word and has at most six
words, yet the classifier rejects it (because `word in text` is substring
containment and "NOTE" is a substring of "NOTEWORTHY"). -/
theorem C5_counterexample :
    (allcaps_match (str "NOTEWORTHY")).isSome = true ∧
    (¬ ∃ w ∈ common_non_headers, w ∈ splitWS (strip (str "NOTEWORTHY"))) ∧
    (splitWS (strip (str "NOTEWORTHY"))).length ≤ 6 ∧
    check_header_patterns (str "NOTEWORTHY") = none := by decide

/-- C5, amended: for every line matching the all-caps pattern, the
classifier rejects it exactly when the stripped text contains one of the
denylist words as a **substring**, or has more than 6 whitespace-separated
words; otherwise it is classified as an allcaps heading. -/
theorem C5_allcaps_denylist (line g : Str) (hm : allcaps_match line = some g) :
    check_header_patterns line =
      (if common_non_headers.any (fun w => isSubstr w (strip g)) = false ∧
          (splitWS (strip g)).length ≤ 6
       then some (.allcaps, strip g, 0) else none) := by
  obtain ⟨hg, c, rest, hline, hc, hall, hlen⟩ := allcaps_match_inv hm
  subst hline
  have h1 : check_markdown (c :: rest) = none := by
    unfold check_markdown
    rw [heading_match_cons_ne (by rintro rfl; exact absurd hc (by decide))]
  have h2 : check_bold (c :: rest) = none := by
    unfold check_bold
    rw [bold_match_cons_ne (by rintro rfl; exact absurd hc (by decide))]
  have h3 : check_colon (c :: rest) = none := by
    unfold check_colon
    rw [colon_match_none_of_upperline hall]
  have h4 : check_date (c :: rest) = none := by
    unfold check_date
    rw [date_match_cons_ne (by rintro rfl; exact absurd hc (by decide))]
  have h5 : check_numbered (c :: rest) = none := by
    unfold check_numbered
    rw [numbered_match_cons_notdigit (not_digit_of_upper hc)]
  rw [check_chain_last h1 h2 h3 h4 h5]
  unfold check_allcaps
  simp only [hm]
  by_cases hd : common_non_headers.any (fun w => isSubstr w (strip g)) = false
  · by_cases hw : (splitWS (strip g)).length ≤ 6
    · simp [hd, hw]
    · simp [hd, hw]
  · have hd2 : common_non_headers.any (fun w => isSubstr w (strip g)) = true := by
      simpa using hd
    simp [hd2]

/-- Witness for C5 at a concrete line that passes the filters. -/
theorem C5_allcaps_denylist_witness :
    check_header_patterns (str "HELLO WORLD") =
      some (.allcaps, str "HELLO WORLD", 0) := by
  have h := C5_allcaps_denylist (str "HELLO WORLD") (str "HELLO WORLD") (by decide)
  rw [h, if_pos (by decide)]
  decide

/-! ## C4: the bold lookahead's dead indentation test -/

/-- C4: evidence of the code bug. The lookahead strips each inspected line
before testing `startswith('  ')`, so the indentation test can never fire:
for a bold heading at breadcrumb depth 2 followed by an indented
(non-list) line the code returns level 2, while both the spec and the
code's own comment ("look ahead to see if there's indented content")
prescribe `min(breadcrumbDepth + 1, 3) = 3`.  The last conjunct is the
dead-code fact: a stripped line never starts with two spaces. -/
theorem C4_bold_lookahead_dead_indent :
    determine_bold_header_level [str "Doc", str "Sec"] [str "    indented detail"] = 2 ∧
    min ([str "Doc", str "Sec"].length + 1) 3 = 3 ∧
    (2 : Nat) ≠ 3 ∧
    ∀ l : Str, startswith (strip l) (str "  ") = false := by
  refine ⟨by decide, by decide, by decide, ?_⟩
  intro l
  cases h : strip l with
  | nil => rfl
  | cons c t =>
    have hc := strip_head_not_space h
    have hcs : (' ' == c) = false := by
      cases hq : (' ' == c)
      · rfl
      · exfalso
        have he : ' ' = c := by simpa using hq
        rw [← he] at hc
        exact absurd hc (by decide)
    simp [startswith, List.isPrefixOf, show str "  " = ' ' :: ' ' :: [] from rfl, hcs]

/-! ## C1: the breadcrumb depth invariant -/

/-- The pop loop with enough fuel truncates the stack to its first
`level - 1` elements. -/
theorem popWhileGeFuel_eq_take (level : Nat) (h1 : 1 ≤ level) :
    ∀ fuel (b : List Str), b.length ≤ fuel →
      popWhileGeFuel fuel b level = b.take (level - 1) := by
  intro fuel
  induction fuel with
  | zero =>
    intro b hb
    have hbn : b = [] := List.eq_nil_of_length_eq_zero (Nat.le_zero.mp hb)
    subst hbn
    simp [popWhileGeFuel]
  | succ m ih =>
    intro b hb
    rw [popWhileGeFuel]
    split
    · next hcond =>
        obtain ⟨hlev, hne⟩ := hcond
        have hlen : 1 ≤ b.length := List.length_pos.mpr hne
        rw [ih b.dropLast (by rw [List.length_dropLast]; omega)]
        rw [List.dropLast_eq_take, List.take_take]
        congr 1
        omega
    · next hcond =>
        by_cases hne : b = []
        · subst hne; simp
        · have hgt : ¬ level ≤ b.length := fun hl => hcond ⟨hl, hne⟩
          exact (List.take_of_length_le (by omega)).symm

/-- The truncation loop equals `take (level - 1)`. -/
theorem pop_while_ge_eq_take (b : List Str) (level : Nat) (h1 : 1 ≤ level) :
    pop_while_ge b level = b.take (level - 1) :=
  popWhileGeFuel_eq_take level h1 b.length b le_rfl

/-- C1, counterexample: the document consisting of the single line
"## Hello" classifies as a markdown heading of resolved level 2, yet the
breadcrumb stack immediately after the update has exactly 1 element, not
2: the update never extends the stack with missing ancestors. -/
theorem C1_counterexample :
    resolved (str "## Hello") [] [] = some (.markdown, str "Hello", 2) ∧
    (processLines [str "## Hello"] [] (str "doc") (str "p")).2.1 = [str "Hello"] ∧
    ([str "Hello"] : List Str).length ≠ 2 := by decide

/-- C1, amended: after the breadcrumb update for a heading of resolved
level L, the stack is `[text]` (or `[docTitle]` for empty text) when
L = 1; for L ≥ 2 it is the previous stack truncated to its first
`min(prevLen, L-1)` elements with the heading text appended, so its
length is `min(prevLen, L-1) + 1` — equal to L exactly when the stack
already had at least L-1 elements — and its last element is the heading
text. -/
theorem C1_breadcrumb_update (b : List Str) (dt text : Str) (L : Nat) (hL : 1 ≤ L) :
    (L = 1 → (update_breadcrumb b dt L text).1 = [if text ≠ [] then text else dt]) ∧
    (2 ≤ L → (update_breadcrumb b dt L text).1 = b.take (L - 1) ++ [text]) ∧
    (2 ≤ L → (update_breadcrumb b dt L text).1.length = min b.length (L - 1) + 1) ∧
    (2 ≤ L → L - 1 ≤ b.length → (update_breadcrumb b dt L text).1.length = L) ∧
    (2 ≤ L → (update_breadcrumb b dt L text).1.getLast? = some text) := by
  refine ⟨?_, ?_, ?_, ?_, ?_⟩
  · rintro rfl
    simp only [update_breadcrumb, if_pos rfl]
    by_cases ht : text ≠ [] <;> simp [ht]
  · intro h2
    simp only [update_breadcrumb, if_neg (by omega : ¬ L = 1)]
    rw [pop_while_ge_eq_take b L hL]
  · intro h2
    simp only [update_breadcrumb, if_neg (by omega : ¬ L = 1)]
    rw [pop_while_ge_eq_take b L hL]
    simp [List.length_take]
    omega
  · intro h2 hlen
    simp only [update_breadcrumb, if_neg (by omega : ¬ L = 1)]
    rw [pop_while_ge_eq_take b L hL]
    simp [List.length_take]
    omega
  · intro h2
    simp only [update_breadcrumb, if_neg (by omega : ¬ L = 1)]
    rw [pop_while_ge_eq_take b L hL]
    exact List.getLast?_concat _

/-- Witness for the amended C1 at a concrete update. -/
theorem C1_breadcrumb_update_witness :
    (update_breadcrumb [str "A"] (str "d") 2 (str "B")).1 =
      [str "A"].take 1 ++ [str "B"] :=
  (C1_breadcrumb_update [str "A"] (str "d") (str "B") 2 (by decide)).2.1 (by decide)

/-! ## C3: termination and the trailing newline -/

theorem pyJoin_concat_empty (front : List Str) (hne : front ≠ []) :
    pyJoin nl (front ++ [[]]) = pyJoin nl front ++ nl := by
  induction front with
  | nil => exact absurd rfl hne
  | cons x xs ih =>
    cases xs with
    | nil => simp [pyJoin]
    | cons y ys =>
      have h2 := ih (by simp)
      simp only [List.cons_append, pyJoin, List.append_eq] at h2 ⊢
      rw [h2]
      simp [List.append_assoc]

theorem convert_to_proper_header_ne_nil (t : Str) (L : Nat) (k : PatternType) :
    convert_to_proper_header t L k ≠ [] := by
  cases k <;> simp [convert_to_proper_header]

theorem heading_match_line_ne_nil {line : Str} {n : Nat} {g2 : Str}
    (h : heading_match line = some (n, g2)) : line ≠ [] := by
  rintro rfl
  simp [heading_match] at h

/-- Inversion of the classify-and-resolve step. -/
theorem resolved_inv {line : Str} {b rest : List Str} {pt : PatternType}
    {text : Str} {lv : Nat} (h : resolved line b rest = some (pt, text, lv)) :
    ∃ n, check_header_patterns line = some (pt, text, n) ∧
      lv = level_for pt text n b rest := by
  unfold resolved at h
  cases hc : check_header_patterns line with
  | none => rw [hc] at h; simp at h
  | some v =>
    obtain ⟨pt', text', n'⟩ := v
    simp only [hc] at h
    have h' := Option.some.inj h
    have hp : pt' = pt := congrArg Prod.fst h'
    have ht : text' = text := congrArg (fun z => z.2.1) h'
    have hl : level_for pt' text' n' b rest = lv :=
      congrArg (fun z : PatternType × Str × Nat => z.2.2) h'
    subst hp
    subst ht
    exact ⟨n', rfl, hl.symm⟩

/-- Only the markdown block can produce a markdown-kind classification. -/
theorem check_markdown_only {line text : Str} {n : Nat}
    (h : check_header_patterns line = some (.markdown, text, n)) :
    ∃ g2, heading_match line = some (n, g2) ∧ text = strip g2 := by
  rcases check_chain_cases h with h' | h' | h' | h' | h' | h'
  · obtain ⟨n', g2, hm, he⟩ := check_markdown_inv h'
    obtain ⟨he2, he3⟩ : text = strip g2 ∧ n = n' := by simpa using he
    exact ⟨g2, he3 ▸ hm, he2⟩
  · obtain ⟨i, -, he⟩ := check_bold_inv h'; simp at he
  · obtain ⟨g1, -, he, -, -⟩ := check_colon_inv h'; simp at he
  · obtain ⟨g1, -, he⟩ := check_date_inv h'; simp at he
  · obtain ⟨g1, g2, -, he, -⟩ := check_numbered_inv h'; simp at he
  · obtain ⟨g1, -, he, -, -⟩ := check_allcaps_inv h'; simp at he

theorem processLines_out_ne_nil (l : Str) (rest b : List Str) (dt p : Str) :
    (processLines (l :: rest) b dt p).1 ≠ [] := by
  cases hr : resolved l b rest with
  | none => simp [processLines, hr]
  | some v =>
    obtain ⟨pt, text, lv⟩ := v
    by_cases ha : startswith (next_nonempty rest) (str "[DocTitle:") = true <;>
      simp [processLines, hr, ha]

theorem processLines_out_eq_nil {lines b : List Str} {dt p : Str}
    (h : (processLines lines b dt p).1 = []) : lines = [] := by
  cases lines with
  | nil => rfl
  | cons l rest => exact absurd h (processLines_out_ne_nil l rest b dt p)

/-- The only way the rewriter's `out` list can be the single empty line is
for the input lines to be the single empty line. -/
theorem processLines_out_singleton_empty {lines b : List Str} {dt p : Str}
    (h : (processLines lines b dt p).1 = [[]]) : lines = [[]] := by
  cases lines with
  | nil => simp [processLines] at h
  | cons l rest =>
    cases hr : resolved l b rest with
    | none =>
      simp only [processLines, hr] at h
      obtain ⟨h1, h2⟩ := List.cons.injEq .. ▸ h
      rw [h1, processLines_out_eq_nil h2]
    | some v =>
      obtain ⟨pt, text, lv⟩ := v
      exfalso
      by_cases ha : startswith (next_nonempty rest) (str "[DocTitle:") = true
      · simp only [processLines, hr, ha] at h
        obtain ⟨h1, -⟩ := List.cons.injEq .. ▸ h
        by_cases hm : pt = .markdown
        · subst hm
          simp only [if_pos rfl] at h1
          obtain ⟨n, hc, -⟩ := resolved_inv hr
          obtain ⟨g2, hmm, -⟩ := check_markdown_only hc
          exact heading_match_line_ne_nil hmm h1
        · rw [if_neg hm] at h1
          exact convert_to_proper_header_ne_nil text lv pt h1
      · simp only [processLines, hr, ha] at h
        obtain ⟨h1, -⟩ := List.cons.injEq .. ▸ h
        by_cases hm : pt = .markdown
        · subst hm
          simp only [if_pos rfl] at h1
          obtain ⟨n, hc, -⟩ := resolved_inv hr
          obtain ⟨g2, hmm, -⟩ := check_markdown_only hc
          exact heading_match_line_ne_nil hmm h1
        · rw [if_neg hm] at h1
          exact convert_to_proper_header_ne_nil text lv pt h1

/-- The rewriter's final join/fix ends in a newline for every `out` other
than the single empty line. -/
theorem joinFix_getLast {out : List Str} (h : out ≠ [[]]) :
    (joinFix out).getLast? = some '\n' := by
  unfold joinFix
  by_cases h0 : out = []
  · subst h0; rfl
  · by_cases hl : out.getLast? = some []
    · rw [if_neg (by push_neg; exact ⟨h0, hl⟩)]
      obtain ⟨front, hfront⟩ := List.getLast?_eq_some_iff.mp hl
      have hfne : front ≠ [] := by
        rintro rfl
        exact h (by simpa using hfront)
      rw [hfront, pyJoin_concat_empty front hfne, List.append_nil]
      exact List.getLast?_concat _
    · rw [if_pos (Or.inr hl)]
      exact List.getLast?_concat _

/-- C3, counterexample: on the input consisting of a single newline the
rewriter returns the empty string, which does not end in a newline at
all (let alone exactly one). -/
theorem C3_counterexample :
    process_markdown (str "\n") (str "p") (str "d") = [] ∧
    (process_markdown (str "\n") (str "p") (str "d")).getLast? ≠ some '\n' := by
  decide

/-- C3, amended: the rewriter is a total function and its output ends in
at least one newline character for every input except a single line-break
(where the output is empty); the output can also end in more than one
newline (e.g. for input "x\n\n\n"). -/
theorem C3_trailing_newline (md p t : Str) (h : splitlines md ≠ [[]]) :
    (process_markdown md p t).getLast? = some '\n' := by
  unfold process_markdown
  apply joinFix_getLast
  intro hout
  exact h (processLines_out_singleton_empty hout)

/-- Witness for the amended C3. -/
theorem C3_trailing_newline_witness :
    (process_markdown (str "x") (str "p") (str "d")).getLast? = some '\n' :=
  C3_trailing_newline (str "x") (str "p") (str "d") (by decide)

/-! ## C6: the document title -/

/-- If no line of the document ever resolves to level 1, the document
title is never changed by the rewriter loop. -/
theorem processLines_docTitle_const :
    ∀ (lines b : List Str) (dt p : Str),
      (∀ l ∈ lines, ∀ b2 rest r, resolved l b2 rest = some r → r.2.2 ≠ 1) →
      (processLines lines b dt p).2.2 = dt := by
  intro lines
  induction lines with
  | nil => intro b dt p hH; simp [processLines]
  | cons l rest ih =>
    intro b dt p hH
    cases hr : resolved l b rest with
    | none =>
      simp only [processLines, hr]
      exact ih b dt p (fun l2 hl2 => hH l2 (by simp [hl2]))
    | some v =>
      obtain ⟨pt, text, lv⟩ := v
      have hlv : lv ≠ 1 := hH l (by simp) b rest (pt, text, lv) hr
      have hdt : (update_breadcrumb b dt lv text).2 = dt := by
        simp [update_breadcrumb, hlv]
      have htail := ih (update_breadcrumb b dt lv text).1
        (update_breadcrumb b dt lv text).2 p
        (fun l2 hl2 => hH l2 (by simp [hl2]))
      by_cases ha : startswith (next_nonempty rest) (str "[DocTitle:") = true
      · simp only [processLines, hr]
        rw [if_pos ha]
        exact htail.trans hdt
      · simp only [processLines, hr]
        rw [if_neg ha]
        exact htail.trans hdt

/-- C6, counterexample: the document "# A\n# B" has two level-1 headings;
after processing, the document title is "B", not the first heading's "A",
and the second injected metadata block contains "[DocTitle: B]" — a later
level-1 heading does change docTitle. -/
theorem C6_counterexample :
    resolved (str "# A") [] [str "# B"] = some (.markdown, str "A", 1) ∧
    resolved (str "# B") [str "A"] [] = some (.markdown, str "B", 1) ∧
    (processLines [str "# A", str "# B"] [] (str "d") (str "p")).2.2 = str "B" ∧
    str "B" ≠ str "A" ∧
    isSubstr (str "[DocTitle: B]")
      (process_markdown (str "# A\n# B") (str "p") (str "d")) = true := by
  decide

/-- C6, amended: docTitle is updated by every heading that resolves to
level 1 and has nonempty text (so the last such heading wins, not the
first); a level-1 heading with empty text leaves it unchanged; and when no
heading of the document resolves to level 1 the title stays the
filename-derived fallback for the whole run. -/
theorem C6_doc_title (b : List Str) (dt text : Str) :
    ((update_breadcrumb b dt 1 text).2 = if text ≠ [] then text else dt) ∧
    (∀ L, L ≠ 1 → (update_breadcrumb b dt L text).2 = dt) ∧
    (∀ lines p,
      (∀ l ∈ lines, ∀ b2 rest r, resolved l b2 rest = some r → r.2.2 ≠ 1) →
      (processLines lines b dt p).2.2 = dt) := by
  refine ⟨?_, ?_, ?_⟩
  · by_cases ht : text ≠ [] <;> simp [update_breadcrumb, ht]
  · intro L hL; simp [update_breadcrumb, hL]
  · intro lines p hH
    exact processLines_docTitle_const lines b dt p hH

/-- Witness for the amended C6: a document whose only heading is "## X"
(level 2) keeps the fallback title. -/
theorem C6_doc_title_witness :
    (processLines [str "## X"] [] (str "d") (str "p")).2.2 = str "d" := by
  refine (C6_doc_title [] (str "d") (str "X")).2.2 [str "## X"] (str "p") ?_
  intro l hl b2 rest r hr
  simp only [List.mem_singleton] at hl
  subst hl
  have hc : check_header_patterns (str "## X") = some (.markdown, str "X", 2) := by
    decide
  unfold resolved at hr
  simp only [hc] at hr
  have h2 : r.2.2 = 2 := by
    rw [← Option.some.inj hr]
    rfl
  omega

/-! ## C2: idempotence — infrastructure

The second pass of the rewriter is analysed through the line structure of
the first pass's output.  `noLB` says a string contains no line-break
character (true of every line produced by `splitlines`); `flatJoin` is
the newline-terminated concatenation that `joinFix` produces whenever the
final fix applies. -/

/-- The string contains no line-break character. -/
def noLB (s : Str) : Prop := ∀ c ∈ s, isLineBreak c = false

/-- Concatenation of elements, each terminated by a newline. -/
def flatJoin : List Str → Str
  | [] => []
  | e :: es => e ++ nl ++ flatJoin es

theorem flatJoin_append (xs ys : List Str) :
    flatJoin (xs ++ ys) = flatJoin xs ++ flatJoin ys := by
  induction xs with
  | nil => simp [flatJoin]
  | cons e es ih => simp [flatJoin, ih]

/-- `"\n".join(out) + "\n"` is the newline-terminated concatenation. -/
theorem pyJoin_append_nl (out : List Str) (h : out ≠ []) :
    pyJoin nl out ++ nl = flatJoin out := by
  induction out with
  | nil => exact absurd rfl h
  | cons e es ih =>
    cases es with
    | nil => simp [pyJoin, flatJoin]
    | cons f fs =>
      have h2 := ih (by simp)
      simp only [pyJoin, flatJoin] at h2 ⊢
      rw [List.append_assoc, List.append_assoc, h2]
      simp [List.append_assoc]

theorem splitlinesFuel_nil (f : Nat) (acc : Str) :
    splitlinesFuel f [] acc = if acc = [] then [] else [acc.reverse] := by
  cases f <;> rfl

/-- A non-linebreak character steps the splitter into its accumulator. -/
theorem splitlinesFuel_cons_noLB {c : Char} (hc : isLineBreak c = false)
    (f : Nat) (tl acc : Str) :
    splitlinesFuel (f + 1) (c :: tl) acc = splitlinesFuel f tl (c :: acc) := by
  simp [splitlinesFuel, hc]

/-- A line break that does not start a CRLF pair closes the current line. -/
theorem splitlinesFuel_cons_LB {c : Char} (hc : isLineBreak c = true)
    (f : Nat) (tl acc : Str) (hno : ¬(c = '\r' ∧ tl.head? = some '\n')) :
    splitlinesFuel (f + 1) (c :: tl) acc = acc.reverse :: splitlinesFuel f tl [] := by
  simp [splitlinesFuel, hc, hno]

/-- A CRLF pair closes the current line, consuming both characters. -/
theorem splitlinesFuel_crlf (f : Nat) (tl acc : Str) :
    splitlinesFuel (f + 1) ('\r' :: '\n' :: tl) acc =
      acc.reverse :: splitlinesFuel f tl [] := rfl

/-- The splitter's result does not depend on the fuel, once sufficient. -/
theorem splitlinesFuel_congr :
    ∀ (f : Nat) (s acc : Str), s.length ≤ f → ∀ g, s.length ≤ g →
      splitlinesFuel f s acc = splitlinesFuel g s acc := by
  intro f
  induction f with
  | zero =>
    intro s acc hs g hg
    have hnil : s = [] := List.eq_nil_of_length_eq_zero (Nat.le_zero.mp hs)
    subst hnil
    rw [splitlinesFuel_nil, splitlinesFuel_nil]
  | succ m ih =>
    intro s acc hs g hg
    cases s with
    | nil => rw [splitlinesFuel_nil, splitlinesFuel_nil]
    | cons c tl =>
      simp only [List.length_cons] at hs hg
      obtain ⟨g', rfl⟩ : ∃ g', g = g' + 1 := ⟨g - 1, by omega⟩
      by_cases hc : isLineBreak c = true
      · by_cases hcr : c = '\r' ∧ tl.head? = some '\n'
        · obtain ⟨rfl, hh⟩ := hcr
          cases tl with
          | nil => simp at hh
          | cons d tl2 =>
            obtain rfl : d = '\n' := by simpa using hh
            rw [splitlinesFuel_crlf, splitlinesFuel_crlf]
            rw [ih tl2 [] (by simp only [List.length_cons] at hs; omega) g'
              (by simp only [List.length_cons] at hg; omega)]
        · rw [splitlinesFuel_cons_LB hc m tl acc hcr,
            splitlinesFuel_cons_LB hc g' tl acc hcr]
          rw [ih tl [] (by omega) g' (by omega)]
      · rw [Bool.not_eq_true] at hc
        rw [splitlinesFuel_cons_noLB hc, splitlinesFuel_cons_noLB hc]
        rw [ih tl (c :: acc) (by omega) g' (by omega)]

theorem splitlines_eq_fuel (f : Nat) (s : Str) (h : s.length ≤ f) :
    splitlines s = splitlinesFuel f s [] :=
  splitlinesFuel_congr s.length s [] le_rfl f h

/-- Splitting `a ++ "\n" ++ b` for a line-break-free `a`. -/
theorem splitlinesFuel_append_nl :
    ∀ (a : Str), noLB a → ∀ (f : Nat) (acc b : Str),
      (a ++ '\n' :: b).length ≤ f →
      splitlinesFuel f (a ++ '\n' :: b) acc = (acc.reverse ++ a) :: splitlines b := by
  intro a
  induction a with
  | nil =>
    intro ha f acc b hf
    simp only [List.nil_append, List.length_cons] at hf ⊢
    obtain ⟨f', rfl⟩ : ∃ f', f = f' + 1 := ⟨f - 1, by omega⟩
    rw [splitlinesFuel_cons_LB (by decide) f' b acc (by simp)]
    rw [← splitlines_eq_fuel f' b (by omega)]
    simp
  | cons c a' ih =>
    intro ha f acc b hf
    have hc : isLineBreak c = false := ha c (by simp)
    simp only [List.cons_append, List.length_cons] at hf ⊢
    obtain ⟨f', rfl⟩ : ∃ f', f = f' + 1 := ⟨f - 1, by omega⟩
    rw [splitlinesFuel_cons_noLB hc]
    rw [ih (fun x hx => ha x (by simp [hx])) f' (c :: acc) b
      (by simp only [List.length_append, List.length_cons] at hf ⊢; omega)]
    simp

theorem splitlines_append_nl {a : Str} (ha : noLB a) (b : Str) :
    splitlines (a ++ '\n' :: b) = a :: splitlines b := by
  rw [splitlines, splitlinesFuel_append_nl a ha _ [] b le_rfl]
  simp

/-- Splitting a line-break-free string. -/
theorem splitlinesFuel_noLB :
    ∀ (a : Str), noLB a → ∀ (f : Nat) (acc : Str), a.length ≤ f →
      splitlinesFuel f a acc = if acc = [] ∧ a = [] then [] else [acc.reverse ++ a] := by
  intro a
  induction a with
  | nil =>
    intro ha f acc hf
    rw [splitlinesFuel_nil]
    by_cases h : acc = [] <;> simp [h]
  | cons c a' ih =>
    intro ha f acc hf
    have hc : isLineBreak c = false := ha c (by simp)
    simp only [List.length_cons] at hf
    obtain ⟨f', rfl⟩ : ∃ f', f = f' + 1 := ⟨f - 1, by omega⟩
    rw [splitlinesFuel_cons_noLB hc]
    rw [ih (fun x hx => ha x (by simp [hx])) f' (c :: acc) (by omega)]
    simp

theorem splitlines_noLB {a : Str} (ha : noLB a) :
    splitlines a = if a = [] then [] else [a] := by
  rw [splitlines, splitlinesFuel_noLB a ha _ [] le_rfl]
  simp

/-- Every line produced by the splitter is line-break free. -/
theorem splitlinesFuel_members_noLB :
    ∀ (f : Nat) (s acc : Str), (∀ c ∈ acc, isLineBreak c = false) →
      ∀ l ∈ splitlinesFuel f s acc, noLB l := by
  intro f
  induction f with
  | zero =>
    intro s acc hacc l hl
    cases s with
    | nil =>
      rw [splitlinesFuel_nil] at hl
      by_cases h : acc = [] <;> simp [h] at hl
      subst hl
      intro x hx
      exact hacc x (by simpa using hx)
    | cons c tl => simp [splitlinesFuel] at hl
  | succ m ih =>
    intro s acc hacc l hl
    cases s with
    | nil =>
      rw [splitlinesFuel_nil] at hl
      by_cases h : acc = [] <;> simp [h] at hl
      subst hl
      intro x hx
      exact hacc x (by simpa using hx)
    | cons c tl =>
      by_cases hc : isLineBreak c = true
      · by_cases hcr : c = '\r' ∧ tl.head? = some '\n'
        · obtain ⟨rfl, hh⟩ := hcr
          cases tl with
          | nil => simp at hh
          | cons d tl2 =>
            obtain rfl : d = '\n' := by simpa using hh
            rw [splitlinesFuel_crlf] at hl
            rcases List.mem_cons.mp hl with rfl | hl
            · intro x hx
              exact hacc x (by simpa using hx)
            · exact ih tl2 [] (by simp) l hl
        · rw [splitlinesFuel_cons_LB hc m tl acc hcr] at hl
          rcases List.mem_cons.mp hl with rfl | hl
          · intro x hx
            exact hacc x (by simpa using hx)
          · exact ih tl [] (by simp) l hl
      · rw [Bool.not_eq_true] at hc
        rw [splitlinesFuel_cons_noLB hc] at hl
        refine ih tl (c :: acc) ?_ l hl
        intro x hx
        rcases List.mem_cons.mp hx with rfl | hx
        · exact hc
        · exact hacc x hx

theorem splitlines_noLB_members {s : Str} : ∀ l ∈ splitlines s, noLB l :=
  splitlinesFuel_members_noLB s.length s [] (by simp)

/-! ### Character-class disjointness -/

theorem toNat_le_of_char_le {a b : Char} (h : a ≤ b) : a.toNat ≤ b.toNat := by
  rw [Char.le_def, UInt32.le_def] at h
  simpa [Char.toNat, UInt32.toNat, BitVec.le_def] using h

/-- Every Python whitespace code point is at most 32 or at least 133. -/
theorem pyIsSpace_toNat {c : Char} (h : pyIsSpace c = true) :
    c.toNat ≤ 32 ∨ 133 ≤ c.toNat := by
  simp only [pyIsSpace, Bool.or_eq_true, decide_eq_true_iff, Bool.and_eq_true,
    or_assoc] at h
  rcases h with rfl|rfl|rfl|rfl|rfl|rfl|rfl|rfl|rfl|rfl|rfl|rfl|rfl|⟨h1,-⟩|rfl|rfl|rfl|rfl|rfl
  all_goals try decide
  right
  have h2 := toNat_le_of_char_le h1
  have h3 : (' ').toNat = 8192 := by decide
  omega

theorem upper_toNat {c : Char} (h : isUpperAZ c = true) :
    65 ≤ c.toNat ∧ c.toNat ≤ 90 := by
  rw [isUpperAZ, Bool.and_eq_true] at h
  have h1 := toNat_le_of_char_le (of_decide_eq_true h.1)
  have h2 := toNat_le_of_char_le (of_decide_eq_true h.2)
  have e1 : ('A').toNat = 65 := rfl
  have e2 : ('Z').toNat = 90 := rfl
  omega

theorem digit_toNat {c : Char} (h : isDigitC c = true) :
    48 ≤ c.toNat ∧ c.toNat ≤ 57 := by
  rw [isDigitC, Bool.and_eq_true] at h
  have h1 := toNat_le_of_char_le (of_decide_eq_true h.1)
  have h2 := toNat_le_of_char_le (of_decide_eq_true h.2)
  have e1 : ('0').toNat = 48 := rfl
  have e2 : ('9').toNat = 57 := rfl
  omega

theorem isUpperAZ_false_of_space {c : Char} (h : pyIsSpace c = true) :
    isUpperAZ c = false := by
  rw [Bool.eq_false_iff]
  intro hu
  obtain ⟨a, b⟩ := upper_toNat hu
  rcases pyIsSpace_toNat h with hc | hc <;> omega

theorem isDigitC_false_of_space {c : Char} (h : pyIsSpace c = true) :
    isDigitC c = false := by
  rw [Bool.eq_false_iff]
  intro hd
  obtain ⟨a, b⟩ := digit_toNat hd
  rcases pyIsSpace_toNat h with hc | hc <;> omega

/-- A whitespace character is distinct from any character with code in
[33, 132]. -/
theorem space_ne {c : Char} (h : pyIsSpace c = true) (d : Char)
    (hd : 33 ≤ d.toNat ∧ d.toNat ≤ 132) : c ≠ d := by
  rintro rfl
  rcases pyIsSpace_toNat h with hc | hc <;> omega

/-! ### Lines the classifier always ignores -/

/-- When all six matchers fail, the chain returns none. -/
theorem check_none_of_matchers {line : Str} (h1 : heading_match line = none)
    (h2 : bold_match line = none) (h3 : colon_match line = none)
    (h4 : date_match line = none) (h5 : numbered_match line = none)
    (h6 : allcaps_match line = none) : check_header_patterns line = none := by
  simp [check_header_patterns, check_markdown, check_bold, check_colon,
    check_date, check_numbered, check_allcaps, h1, h2, h3, h4, h5, h6]

theorem check_none_nil : check_header_patterns [] = none := by decide

/-- A line beginning with whitespace never classifies as a heading. -/
theorem check_none_space_head {c : Char} {t : Str} (hc : pyIsSpace c = true) :
    check_header_patterns (c :: t) = none := by
  refine check_none_of_matchers
    (heading_match_cons_ne (space_ne hc '#' (by decide)))
    (bold_match_cons_ne (space_ne hc '*' (by decide)))
    (colon_match_cons_notupper (isUpperAZ_false_of_space hc))
    (date_match_cons_ne (space_ne hc '2' (by decide)))
    (numbered_match_cons_notdigit (isDigitC_false_of_space hc))
    (allcaps_match_cons_notupper (isUpperAZ_false_of_space hc))

/-- A line beginning with an opening bracket never classifies. -/
theorem check_none_bracket_head (t : Str) :
    check_header_patterns ('[' :: t) = none := by
  refine check_none_of_matchers
    (heading_match_cons_ne (by decide))
    (bold_match_cons_ne (by decide))
    (colon_match_cons_notupper (by decide))
    (date_match_cons_ne (by decide))
    (numbered_match_cons_notdigit (by decide))
    (allcaps_match_cons_notupper (by decide))

/-- A blank (whitespace-only) line never classifies. -/
theorem check_none_of_strip_empty {l : Str} (h : strip l = []) :
    check_header_patterns l = none := by
  cases l with
  | nil => exact check_none_nil
  | cons c t =>
    have hws : pyIsSpace c = true := by
      by_contra hcon
      rw [Bool.not_eq_true] at hcon
      have hd : (c :: t).dropWhile pyIsSpace = c :: t := by
        simp [List.dropWhile_cons, hcon]
      unfold strip at h
      rw [hd, List.reverse_eq_nil_iff, List.dropWhile_eq_nil_iff] at h
      have hcc := h c (by simp)
      rw [hcc] at hcon
      simp at hcon
    exact check_none_space_head hws

/-- A line whose stripped form starts with "[DocTitle:" never
classifies. -/
theorem check_none_of_strip_bracket {l : Str}
    (h : startswith (strip l) (str "[DocTitle:") = true) :
    check_header_patterns l = none := by
  obtain ⟨t, hst⟩ : ∃ t, strip l = '[' :: t := by
    cases hs : strip l with
    | nil => rw [hs] at h; exact absurd h (by decide)
    | cons a t =>
      rw [hs] at h
      rw [startswith, List.isPrefixOf_iff_prefix,
        show str "[DocTitle:" = '[' :: str "DocTitle:" from rfl,
        List.cons_prefix_cons] at h
      exact ⟨t, by rw [← h.1]⟩
  cases l with
  | nil => simp [strip] at hst
  | cons c tl =>
    by_cases hws : pyIsSpace c = true
    · exact check_none_space_head hws
    · rw [Bool.not_eq_true] at hws
      have hd : (c :: tl).dropWhile pyIsSpace = c :: tl := by
        simp [List.dropWhile_cons, hws]
      have hpre := strip_prefix_dropWhile (c :: tl)
      rw [hst, hd] at hpre
      obtain ⟨u, hu⟩ := hpre
      have hc : c = '[' := by
        injection hu with hu1 hu2
        exact hu1.symm
      subst hc
      exact check_none_bracket_head tl

/-! ### The peek and its decomposition -/

theorem startswith_ne_nil {s : Str} {c : Char} {pre : Str}
    (h : startswith s (c :: pre) = true) : s ≠ [] := by
  rintro rfl
  simp [startswith, List.isPrefixOf] at h

theorem next_nonempty_append_blanks {ws : List Str}
    (hws : ∀ w ∈ ws, strip w = []) {l : Str} (hl : strip l ≠ [])
    (X : List Str) : next_nonempty (ws ++ l :: X) = strip l := by
  induction ws with
  | nil => simp [next_nonempty, hl]
  | cons w ws ih =>
    have hw : strip w = [] := hws w (by simp)
    simp only [List.cons_append, next_nonempty, hw]
    simp only [ne_eq, not_true_eq_false, if_false]
    exact ih (fun x hx => hws x (by simp [hx]))

theorem next_nonempty_decomp {rest : List Str} (h : next_nonempty rest ≠ []) :
    ∃ ws l rest2, rest = ws ++ l :: rest2 ∧ (∀ w ∈ ws, strip w = []) ∧
      strip l ≠ [] ∧ strip l = next_nonempty rest := by
  induction rest with
  | nil => simp [next_nonempty] at h
  | cons a rest ih =>
    by_cases ha : strip a = []
    · simp only [next_nonempty, ha] at h ⊢
      simp only [ne_eq, not_true_eq_false, if_false] at h ⊢
      obtain ⟨ws, l, rest2, h1, h2, h3, h4⟩ := ih h
      refine ⟨a :: ws, l, rest2, by simp [h1], ?_, h3, h4⟩
      intro w hw
      rcases List.mem_cons.mp hw with rfl | hw
      · exact ha
      · exact h2 w hw
    · refine ⟨[], a, rest, by simp, by simp, ha, ?_⟩
      simp [next_nonempty, ha]

/-! ### The shape of a once-augmented line list -/

/-- A line list is "augmented" when every line either does not classify,
or classifies as a markdown heading whose next non-blank line already
starts with the metadata marker.  On such a list the rewriter makes no
change. -/
def AugLines : List Str → Prop
  | [] => True
  | l :: rest =>
    (check_header_patterns l = none ∨
      ((∃ t n, check_header_patterns l = some (.markdown, t, n)) ∧
        startswith (next_nonempty rest) (str "[DocTitle:") = true)) ∧
    AugLines rest

theorem resolved_none_of_check {line : Str} (b rest : List Str)
    (h : check_header_patterns line = none) : resolved line b rest = none := by
  unfold resolved
  rw [h]

/-- The rewriter is the identity (and injects nothing) on an augmented
line list. -/
theorem processLines_fix_aug :
    ∀ (ls : List Str), AugLines ls → ∀ (b : List Str) (dt p : Str),
      (processLines ls b dt p).1 = ls := by
  intro ls
  induction ls with
  | nil => intro _ b dt p; simp [processLines]
  | cons l rest ih =>
    intro haug b dt p
    obtain ⟨hnode, htail⟩ := haug
    rcases hnode with hnone | ⟨⟨t, n, hmd⟩, hnn⟩
    · simp only [processLines, resolved_none_of_check b rest hnone]
      rw [ih htail]
    · have hr : resolved l b rest = some (.markdown, t, n) := by
        unfold resolved
        rw [hmd]
        rfl
      simp only [processLines, hr]
      rw [if_pos hnn]
      rw [ih htail]
      simp

/-- The element-level shape of the rewriter's output: each element is a
non-classifying line, a markdown-classifying header followed (through the
flattened line view) by a metadata marker, or an injected metadata
block. -/
inductive AugOut : List Str → Prop where
  | nil : AugOut []
  | plain (l : Str) (out : List Str) :
      check_header_patterns l = none → noLB l → AugOut out →
      AugOut (l :: out)
  | hdrInj (h b1 : Str) (brest out : List Str) :
      (∃ t n, check_header_patterns h = some (.markdown, t, n)) → noLB h →
      (∀ l ∈ b1 :: brest, check_header_patterns l = none ∧ noLB l) →
      startswith (strip b1) (str "[DocTitle:") = true →
      strip b1 ≠ [] →
      AugOut out →
      AugOut (h :: (pyJoin nl (b1 :: brest) ++ nl ++ nl) :: out)
  | hdrSup (h : Str) (ws : List Str) (L : Str) (out3 : List Str) :
      (∃ t n, check_header_patterns h = some (.markdown, t, n)) → noLB h →
      (∀ w ∈ ws, strip w = [] ∧ noLB w) →
      strip L ≠ [] → startswith (strip L) (str "[DocTitle:") = true →
      noLB L →
      AugOut (ws ++ L :: out3) →
      AugOut (h :: (ws ++ L :: out3))

/-! ### Captured text lives inside the line -/

theorem heading_match_mem {line : Str} {n : Nat} {g2 : Str}
    (h : heading_match line = some (n, g2)) : ∀ c ∈ g2, c ∈ line := by
  simp only [heading_match] at h
  split at h
  · split at h
    · split at h
      · have hg : g2 = (line.dropWhile (fun c => c = '#')).dropWhile pyIsSpace := by
          have := Option.some.inj h
          exact (congrArg Prod.snd this).symm
        intro c hc
        rw [hg] at hc
        have h1 : c ∈ line.dropWhile (fun c => c = '#') :=
          (List.dropWhile_sublist _).subset hc
        exact (List.dropWhile_sublist _).subset h1
      · exact absurd h (by simp)
    · exact absurd h (by simp)
  · exact absurd h (by simp)

theorem bold_match_second_ne {c : Char} {t : Str} (hc : c ≠ '*') :
    bold_match ('*' :: c :: t) = none := by
  unfold bold_match
  split
  · next rest heq =>
      exact absurd (show c = '*' by
        injection heq with e1 e2
        injection e2) hc
  · rfl

theorem bold_match_mem {line : Str} {inner : Str}
    (h : bold_match line = some inner) : ∀ c ∈ inner, c ∈ line := by
  cases line with
  | nil => simp [bold_match] at h
  | cons c1 t1 =>
    rcases eq_or_ne c1 '*' with rfl | h1
    · cases t1 with
      | nil => simp [bold_match] at h
      | cons c2 t2 =>
        rcases eq_or_ne c2 '*' with rfl | h2
        · simp only [bold_match] at h
          split at h
          · exact absurd h (by simp)
          · split at h
            · split at h
              · have hg : inner = t2.takeWhile (fun c => c ≠ '*') :=
                  (Option.some.inj h).symm
                intro c hc
                rw [hg] at hc
                have := (List.takeWhile_sublist (l := t2) _).subset hc
                simp [this]
              · exact absurd h (by simp)
            · exact absurd h (by simp)
        · rw [bold_match_second_ne h2] at h
          exact absurd h (by simp)
    · rw [bold_match_cons_ne h1] at h
      exact absurd h (by simp)

theorem colon_match_mem {line g1 : Str} (h : colon_match line = some g1) :
    ∀ c ∈ g1, c ∈ line := by
  cases line with
  | nil => simp [colon_match] at h
  | cons c rest =>
    simp only [colon_match] at h
    split at h
    case isFalse => exact absurd h (by simp)
    case isTrue hu =>
      split at h
      case isFalse => exact absurd h (by simp)
      case isTrue h3 =>
        split at h
        case h_2 => exact absurd h (by simp)
        case h_1 tl heq =>
          split at h
          case isFalse => exact absurd h (by simp)
          case isTrue hall =>
            have hg : g1 = c :: rest.takeWhile alphaWS := by simpa using h.symm
            intro x hx
            rw [hg] at hx
            rcases List.mem_cons.mp hx with rfl | hx
            · simp
            · have := (List.takeWhile_sublist (l := rest) _).subset hx
              simp [this]

theorem date_match_eq_line {line g1 : Str} (h : date_match line = some g1) :
    g1 = line := by
  unfold date_match at h
  split at h
  · split at h
    · try dsimp only at h
      split at h
      · exact absurd h (by simp)
      · split at h
        · split at h
          · try dsimp only at h
            split at h
            · exact absurd h (by simp)
            · split at h
              · split at h
                · exact (Option.some.inj h).symm
                · exact absurd h (by simp)
              · exact absurd h (by simp)
          · exact absurd h (by simp)
        · exact absurd h (by simp)
    · exact absurd h (by simp)
  · exact absurd h (by simp)

/-- Full inversion of `numbered_match`, exposing where both captures live. -/
theorem numbered_match_full_inv {line ds title : Str}
    (h : numbered_match line = some (ds, title)) :
    ds = line.takeWhile isDigitC ∧
    ∃ r1, line.dropWhile isDigitC = '.' :: r1 ∧ title = r1.dropWhile pyIsSpace := by
  simp only [numbered_match] at h
  split at h
  case isFalse => exact absurd h (by simp)
  case isTrue hg =>
    split at h
    case h_2 => exact absurd h (by simp)
    case h_1 r1 heq =>
      split at h
      case isTrue => exact absurd h (by simp)
      case isFalse hw =>
        split at h
        case h_2 => exact absurd h (by simp)
        case h_1 c tail heq2 =>
          split at h
          case isFalse => exact absurd h (by simp)
          case isTrue hf =>
            obtain ⟨h1, h2⟩ : line.takeWhile isDigitC = ds ∧ c :: tail = title := by
              simpa using h
            exact ⟨h1.symm, r1, heq, by rw [← h2, ← heq2]⟩

theorem mem_of_mem_rstripColon {c : Char} {s : Str} (h : c ∈ rstripColon s) :
    c ∈ s := by
  unfold rstripColon at h
  rw [List.mem_reverse] at h
  have := (List.dropWhile_sublist (l := s.reverse) _).subset h
  simpa using this

/-- The extracted heading text of any classification contains no
line-break character when the line contains none. -/
theorem check_text_noLB {line : Str} (hline : noLB line) {k : PatternType}
    {t : Str} {n : Nat} (h : check_header_patterns line = some (k, t, n)) :
    noLB t := by
  rcases check_chain_cases h with h' | h' | h' | h' | h' | h'
  · obtain ⟨n', g2, hm, he⟩ := check_markdown_inv h'
    obtain ⟨-, ht, -⟩ : k = .markdown ∧ t = strip g2 ∧ n = n' := by simpa using he
    intro c hc
    rw [ht] at hc
    exact hline c (heading_match_mem hm c (mem_of_mem_strip hc))
  · obtain ⟨i, hm, he⟩ := check_bold_inv h'
    obtain ⟨-, ht, -⟩ : k = .bold ∧ t = strip i ∧ n = 0 := by simpa using he
    intro c hc
    rw [ht] at hc
    exact hline c (bold_match_mem hm c (mem_of_mem_strip hc))
  · obtain ⟨g1, hm, he, -, -⟩ := check_colon_inv h'
    obtain ⟨-, ht, -⟩ : k = .colon ∧ t = strip g1 ∧ n = 0 := by simpa using he
    intro c hc
    rw [ht] at hc
    exact hline c (colon_match_mem hm c (mem_of_mem_strip hc))
  · obtain ⟨g1, hm, he⟩ := check_date_inv h'
    obtain ⟨-, ht, -⟩ : k = .date ∧ t = strip g1 ∧ n = 0 := by simpa using he
    intro c hc
    rw [ht] at hc
    rw [date_match_eq_line hm] at hc
    exact hline c (mem_of_mem_strip hc)
  · obtain ⟨g1, g2, hm, he, -⟩ := check_numbered_inv h'
    obtain ⟨-, ht, -⟩ : k = .numbered ∧ t = g1 ++ '.' :: ' ' :: strip g2 ∧ n = 0 := by
      simpa using he
    obtain ⟨hds, r1, hr1, htitle⟩ := numbered_match_full_inv hm
    intro c hc
    rw [ht] at hc
    rw [List.mem_append] at hc
    rcases hc with hc | hc
    · rw [hds] at hc
      exact hline c ((List.takeWhile_sublist _).subset hc)
    · rcases List.mem_cons.mp hc with rfl | hc
      · decide
      · rcases List.mem_cons.mp hc with rfl | hc
        · decide
        · have hc2 : c ∈ r1 :=
            (List.dropWhile_sublist _).subset (mem_of_mem_strip (htitle ▸ hc))
          have hc3 : c ∈ line.dropWhile isDigitC := by
            rw [hr1]; simp [hc2]
          exact hline c ((List.dropWhile_sublist _).subset hc3)
  · obtain ⟨g1, hm, he, -, -⟩ := check_allcaps_inv h'
    obtain ⟨-, ht, -⟩ : k = .allcaps ∧ t = strip g1 ∧ n = 0 := by simpa using he
    obtain ⟨hg, -⟩ := allcaps_match_inv hm
    intro c hc
    rw [ht, hg] at hc
    exact hline c (mem_of_mem_strip hc)

/-! ### Resolved levels are between 1 and 6 for non-markdown kinds -/

theorem level_for_bounds {pt : PatternType} (hpt : pt ≠ .markdown) (text : Str)
    (n : Nat) (b rest : List Str) :
    1 ≤ level_for pt text n b rest ∧ level_for pt text n b rest ≤ 6 := by
  cases pt with
  | markdown => exact absurd rfl hpt
  | bold =>
    simp only [level_for, determine_bold_header_level]
    split
    · omega
    · split <;> omega
  | date =>
    simp only [level_for, determine_header_level_by_context]
    split <;> omega
  | colon =>
    simp only [level_for, determine_header_level_by_context]
    split
    · split <;> omega
    · split <;> omega
  | numbered =>
    simp only [level_for, determine_header_level_by_context]
    split <;> omega
  | allcaps =>
    simp only [level_for, determine_header_level_by_context]
    split <;> omega

/-! ### The emitted header always classifies as a markdown heading -/

theorem convert_to_proper_header_shape (t : Str) (L : Nat) (k : PatternType) :
    ∃ t2, convert_to_proper_header t L k = List.replicate L '#' ++ ' ' :: t2 ∧
      ∀ c ∈ t2, c ∈ t := by
  cases k with
  | markdown => exact ⟨t, rfl, fun c hc => hc⟩
  | bold => exact ⟨t, rfl, fun c hc => hc⟩
  | colon => exact ⟨rstripColon t, rfl, fun c hc => mem_of_mem_rstripColon hc⟩
  | date => exact ⟨t, rfl, fun c hc => hc⟩
  | numbered => exact ⟨t, rfl, fun c hc => hc⟩
  | allcaps => exact ⟨t, rfl, fun c hc => hc⟩

theorem replicate_hash_take (L : Nat) (text : Str) :
    (List.replicate L '#' ++ ' ' :: text).takeWhile (fun c => c = '#') =
      List.replicate L '#' ∧
    (List.replicate L '#' ++ ' ' :: text).dropWhile (fun c => c = '#') =
      ' ' :: text := by
  induction L with
  | zero =>
    constructor
    · simp [List.takeWhile_cons]
    · simp [List.dropWhile_cons]
  | succ m ih =>
    simp only [List.replicate_succ, List.cons_append, List.takeWhile_cons,
      List.dropWhile_cons]
    simp [ih.1, ih.2]

theorem heading_match_header (L : Nat) (h1 : 1 ≤ L) (h6 : L ≤ 6) (text : Str) :
    heading_match (List.replicate L '#' ++ ' ' :: text) =
      some (L, text.dropWhile pyIsSpace) := by
  obtain ⟨ht, hd⟩ := replicate_hash_take L text
  simp only [heading_match, ht, hd]
  rw [if_pos (by simp [h1, h6])]
  rw [if_pos (by decide)]
  rw [List.dropWhile_cons]
  simp [show pyIsSpace ' ' = true from by decide, List.length_replicate]

/-- The chain returns the markdown block's value when it matches. -/
theorem check_chain_first {line : Str} {r : PatternType × Str × Nat}
    (h : check_markdown line = some r) : check_header_patterns line = some r := by
  simp [check_header_patterns, h]

theorem check_md_header (L : Nat) (h1 : 1 ≤ L) (h6 : L ≤ 6) (text : Str) :
    check_header_patterns (List.replicate L '#' ++ ' ' :: text) =
      some (.markdown, strip (text.dropWhile pyIsSpace), L) := by
  apply check_chain_first
  simp only [check_markdown, heading_match_header L h1 h6 text]

/-! ### Line-break-free strings: closure properties -/

theorem noLB_append {a b : Str} (ha : noLB a) (hb : noLB b) : noLB (a ++ b) := by
  intro c hc
  rcases List.mem_append.mp hc with h | h
  · exact ha c h
  · exact hb c h

theorem noLB_of_subset {a b : Str} (h : ∀ c ∈ a, c ∈ b) (hb : noLB b) : noLB a :=
  fun c hc => hb c (h c hc)

theorem noLB_replicate_hash (L : Nat) : noLB (List.replicate L '#') := by
  intro c hc
  rw [List.eq_of_mem_replicate hc]
  decide

theorem noLB_take {n : Nat} {a : Str} (ha : noLB a) : noLB (a.take n) :=
  noLB_of_subset (fun c hc => List.take_subset n a hc) ha

theorem pyJoin_mem {sep : Str} {xs : List Str} {c : Char} (h : c ∈ pyJoin sep xs) :
    c ∈ sep ∨ ∃ x ∈ xs, c ∈ x := by
  induction xs with
  | nil => simp [pyJoin] at h
  | cons x xs ih =>
    cases xs with
    | nil =>
      right
      exact ⟨x, by simp, by simpa [pyJoin] using h⟩
    | cons y ys =>
      simp only [pyJoin, List.append_assoc, List.mem_append] at h
      rcases h with h | h | h
      · right; exact ⟨x, by simp, h⟩
      · left; exact h
      · rcases ih h with h | ⟨z, hz, hc⟩
        · left; exact h
        · right; exact ⟨z, by simp [hz], hc⟩

theorem noLB_pyJoin {sep : Str} {xs : List Str} (hsep : noLB sep)
    (hxs : ∀ x ∈ xs, noLB x) : noLB (pyJoin sep xs) := by
  intro c hc
  rcases pyJoin_mem hc with h | ⟨x, hx, hc2⟩
  · exact hsep c h
  · exact hxs x hx c hc2

theorem dedup_subset : ∀ {l : List Str} {x : Str}, x ∈ dedup l → x ∈ l := by
  intro l
  induction l with
  | nil => intro x h; simp [dedup] at h
  | cons a l ih =>
    intro x h
    simp only [dedup, List.mem_cons] at h
    rcases h with rfl | h
    · simp
    · exact List.mem_cons_of_mem a (ih (List.mem_of_mem_filter h))

theorem insertSorted_mem : ∀ {l : List Str} {x y : Str},
    x ∈ insertSorted y l → x = y ∨ x ∈ l := by
  intro l
  induction l with
  | nil => intro x y h; simpa [insertSorted] using h
  | cons a l ih =>
    intro x y h
    simp only [insertSorted] at h
    split at h
    · rcases List.mem_cons.mp h with rfl | h
      · left; rfl
      · right; exact h
    · rcases List.mem_cons.mp h with rfl | h
      · right; simp
      · rcases ih h with h | h
        · left; exact h
        · right; simp [h]

theorem pySorted_subset : ∀ {l : List Str} {x : Str}, x ∈ pySorted l → x ∈ l := by
  intro l
  induction l with
  | nil => intro x h; simp [pySorted] at h
  | cons a l ih =>
    intro x h
    simp only [pySorted] at h
    rcases insertSorted_mem h with rfl | h
    · simp
    · exact List.mem_cons_of_mem a (ih h)

theorem splitWSAux_chars : ∀ (s acc w : Str), w ∈ splitWSAux s acc →
    ∀ c ∈ w, c ∈ s ∨ c ∈ acc := by
  intro s
  induction s with
  | nil =>
    intro acc w hw c hc
    by_cases h : acc = [] <;> simp [splitWSAux, h] at hw
    subst hw
    right
    simpa using hc
  | cons a s ih =>
    intro acc w hw c hc
    simp only [splitWSAux] at hw
    by_cases ha : pyIsSpace a = true
    · rw [if_pos ha] at hw
      by_cases hacc : acc = []
      · rw [if_pos hacc] at hw
        rcases ih [] w hw c hc with h | h
        · left; exact List.mem_cons_of_mem a h
        · simp at h
      · rw [if_neg hacc] at hw
        rcases List.mem_cons.mp hw with rfl | hw
        · right; simpa using hc
        · rcases ih [] w hw c hc with h | h
          · left; exact List.mem_cons_of_mem a h
          · simp at h
    · rw [if_neg ha] at hw
      rcases ih (a :: acc) w hw c hc with h | h
      · left; exact List.mem_cons_of_mem a h
      · rcases List.mem_cons.mp h with rfl | h
        · left; simp
        · right; exact h

theorem splitWS_chars {s w : Str} (hw : w ∈ splitWS s) : ∀ c ∈ w, c ∈ s := by
  intro c hc
  rcases splitWSAux_chars s [] w hw c hc with h | h
  · exact h
  · simp at h

theorem removeUnderlineTagFuel_mem :
    ∀ (f : Nat) (s : Str) (c : Char), c ∈ removeUnderlineTagFuel f s → c ∈ s := by
  intro f
  induction f with
  | zero =>
    intro s c h
    cases s with
    | nil => simp [removeUnderlineTagFuel] at h
    | cons a tl => exact h
  | succ m ih =>
    intro s c h
    cases s with
    | nil => simp [removeUnderlineTagFuel] at h
    | cons a tl =>
      simp only [removeUnderlineTagFuel] at h
      split at h
      · exact List.drop_subset 12 (a :: tl) (ih _ c h)
      · rcases List.mem_cons.mp h with rfl | h
        · simp
        · exact List.mem_cons_of_mem a (ih tl c h)

theorem guess_aliases_chars {text : Str} {w : Str}
    (hw : w ∈ guess_aliases_from_heading text) :
    ∀ c ∈ w, c ∈ text ∨ c = ' ' := by
  unfold guess_aliases_from_heading at hw
  have h1 : w ∈ splitWS (removeUnderlineTag
      (text.map (fun c => if isAliasSpecial c then ' ' else c))) :=
    List.mem_of_mem_filter (List.take_subset 5 _ hw)
  intro c hc
  have h2 := splitWS_chars h1 c hc
  have h3 := removeUnderlineTagFuel_mem _ _ c h2
  rcases List.mem_map.mp h3 with ⟨d, hd, hdc⟩
  by_cases hs : isAliasSpecial d = true
  · right
    rw [if_pos hs] at hdc
    exact hdc.symm
  · left
    rw [if_neg hs] at hdc
    rw [← hdc]
    exact hd

theorem guess_aliases_noLB {text : Str} (ht : noLB text) :
    ∀ w ∈ guess_aliases_from_heading text, noLB w := by
  intro w hw c hc
  rcases guess_aliases_chars hw c hc with h | rfl
  · exact ht c h
  · decide

/-! ### Utilities for the idempotence analysis (C2) -/

theorem noLB_of_all {s : Str} (h : s.all (fun c => ! isLineBreak c) = true) :
    noLB s := by
  intro c hc
  simpa using List.all_eq_true.mp h c hc

theorem strip_sandwich (c d : Char) (hc : pyIsSpace c = false)
    (hd : pyIsSpace d = false) (y : Str) :
    strip (c :: (y ++ [d])) = c :: (y ++ [d]) := by
  unfold strip
  rw [List.dropWhile_cons, if_neg (by simp [hc])]
  rw [show (c :: (y ++ [d])).reverse = d :: (y.reverse ++ [c]) by simp]
  rw [List.dropWhile_cons, if_neg (by simp [hd])]
  simp

theorem strip_block_line (x : Str) :
    strip ('[' :: (x ++ [']'])) = '[' :: (x ++ [']']) :=
  strip_sandwich '[' ']' (by decide) (by decide) x

theorem startswith_append (pre x : Str) : startswith (pre ++ x) pre = true := by
  unfold startswith
  exact List.isPrefixOf_iff_prefix.mpr (List.prefix_append pre x)

theorem popWhileGeFuel_subset :
    ∀ (f : Nat) (b : List Str) (lv : Nat) (x : Str),
      x ∈ popWhileGeFuel f b lv → x ∈ b := by
  intro f
  induction f with
  | zero => intro b lv x hx; exact hx
  | succ m ih =>
    intro b lv x hx
    simp only [popWhileGeFuel] at hx
    split at hx
    · exact (List.dropLast_prefix b).subset (ih b.dropLast lv x hx)
    · exact hx

theorem pop_while_ge_subset {b : List Str} {lv : Nat} {x : Str}
    (hx : x ∈ pop_while_ge b lv) : x ∈ b :=
  popWhileGeFuel_subset b.length b lv x hx

theorem resolved_none_check {line : Str} {b rest : List Str}
    (h : resolved line b rest = none) : check_header_patterns line = none := by
  unfold resolved at h
  cases hc : check_header_patterns line with
  | none => rfl
  | some v =>
    obtain ⟨pt, t, n⟩ := v
    rw [hc] at h
    simp at h

theorem heading_match_bounds {line : Str} {n : Nat} {g2 : Str}
    (h : heading_match line = some (n, g2)) : 1 ≤ n ∧ n ≤ 6 := by
  simp only [heading_match] at h
  split at h
  · next hcond =>
    split at h
    · split at h
      · have hn : (line.takeWhile (fun c => c = '#')).length = n :=
          congrArg Prod.fst (Option.some.inj h)
        rw [hn] at hcond
        simpa using hcond
      · exact absurd h (by simp)
    · exact absurd h (by simp)
  · exact absurd h (by simp)

theorem check_markdown_level_bounds {line text : Str} {n : Nat}
    (h : check_header_patterns line = some (.markdown, text, n)) :
    1 ≤ n ∧ n ≤ 6 := by
  obtain ⟨g2, hm, -⟩ := check_markdown_only h
  exact heading_match_bounds hm

/-- Lines that never classify pass through the rewriter unchanged, state
included. -/
theorem processLines_passthrough :
    ∀ (ws : List Str), (∀ w ∈ ws, check_header_patterns w = none) →
    ∀ (rest b : List Str) (dt p : Str),
      processLines (ws ++ rest) b dt p =
        (ws ++ (processLines rest b dt p).1, (processLines rest b dt p).2) := by
  intro ws
  induction ws with
  | nil => intro _ rest b dt p; simp
  | cons w ws ih =>
    intro hws rest b dt p
    have hw : check_header_patterns w = none := hws w (by simp)
    simp only [List.cons_append, processLines, List.append_eq,
      resolved_none_of_check b (ws ++ rest) hw]
    rw [ih (fun x hx => hws x (by simp [hx])) rest b dt p]

theorem splitlines_flatJoin_cons {x : Str} (hx : noLB x) (rest : List Str) :
    splitlines (flatJoin (x :: rest)) = x :: splitlines (flatJoin rest) := by
  show splitlines (x ++ nl ++ flatJoin rest) = _
  rw [List.append_assoc]
  exact splitlines_append_nl hx (flatJoin rest)

theorem splitlines_flatJoin_front {ws : List Str} (hws : ∀ w ∈ ws, noLB w)
    (rest : List Str) :
    splitlines (flatJoin (ws ++ rest)) = ws ++ splitlines (flatJoin rest) := by
  induction ws with
  | nil => simp
  | cons w ws ih =>
    simp only [List.cons_append]
    rw [splitlines_flatJoin_cons (hws w (by simp)),
      ih (fun x hx => hws x (by simp [hx]))]

theorem AugLines_append_none {xs ys : List Str}
    (hx : ∀ x ∈ xs, check_header_patterns x = none) (hy : AugLines ys) :
    AugLines (xs ++ ys) := by
  induction xs with
  | nil => exact hy
  | cons x xs ih =>
    exact ⟨Or.inl (hx x (by simp)), ih (fun z hz => hx z (by simp [hz]))⟩

theorem pyJoin_cons_ne {sep x : Str} {L : List Str} (h : L ≠ []) :
    pyJoin sep (x :: L) = x ++ sep ++ pyJoin sep L := by
  cases L with
  | nil => exact absurd rfl h
  | cons y ys => rfl

/-- The flattened view of an element list starting with an injected
metadata block: the block contributes its own lines plus two blank
lines. -/
theorem flatJoin_block (bs : List Str) (hbs : bs ≠ []) (out : List Str) :
    flatJoin ((pyJoin nl bs ++ nl ++ nl) :: out) =
      flatJoin (bs ++ [] :: [] :: out) := by
  show (pyJoin nl bs ++ nl ++ nl) ++ nl ++ flatJoin out = _
  rw [flatJoin_append]
  show _ = flatJoin bs ++ ([] ++ nl ++ ([] ++ nl ++ flatJoin out))
  rw [← pyJoin_append_nl bs hbs]
  simp [List.append_assoc]

/-- Strings whose only line-break characters are plain newlines. -/
def onlyNL (s : Str) : Prop := ∀ c ∈ s, isLineBreak c = true → c = '\n'

theorem onlyNL_of_noLB {s : Str} (h : noLB s) : onlyNL s := by
  intro c hc hl
  rw [h c hc] at hl
  exact absurd hl (by simp)

theorem splitlinesFuel_ne_nil : ∀ (f : Nat) (s acc : Str), s.length ≤ f →
    s ≠ [] ∨ acc ≠ [] → splitlinesFuel f s acc ≠ [] := by
  intro f
  induction f with
  | zero =>
    intro s acc hs hne
    have hnil : s = [] := List.eq_nil_of_length_eq_zero (Nat.le_zero.mp hs)
    subst hnil
    rw [splitlinesFuel_nil]
    rcases hne with h | h
    · exact absurd rfl h
    · rw [if_neg h]; simp
  | succ m ih =>
    intro s acc hs hne
    cases s with
    | nil =>
      rw [splitlinesFuel_nil]
      rcases hne with h | h
      · exact absurd rfl h
      · rw [if_neg h]; simp
    | cons c tl =>
      simp only [List.length_cons] at hs
      by_cases hc : isLineBreak c = true
      · by_cases hcr : c = '\r' ∧ tl.head? = some '\n'
        · obtain ⟨rfl, hh⟩ := hcr
          cases tl with
          | nil => simp at hh
          | cons d tl2 =>
            obtain rfl : d = '\n' := by simpa using hh
            rw [splitlinesFuel_crlf]
            simp
        · rw [splitlinesFuel_cons_LB hc m tl acc hcr]
          simp
      · rw [Bool.not_eq_true] at hc
        rw [splitlinesFuel_cons_noLB hc]
        exact ih tl (c :: acc) (by omega) (Or.inr (by simp))

theorem splitlines_ne_nil {s : Str} (h : s ≠ []) : splitlines s ≠ [] :=
  splitlinesFuel_ne_nil s.length s [] le_rfl (Or.inl h)

/-- Decompose a string at its first line break, if any. -/
theorem first_LB : ∀ (a : Str), noLB a ∨
    ∃ a1 c a2, a = a1 ++ c :: a2 ∧ noLB a1 ∧ isLineBreak c = true ∧
      a2.length < a.length := by
  intro a
  induction a with
  | nil => exact Or.inl (fun c hc => by simp at hc)
  | cons d tl ih =>
    by_cases hd : isLineBreak d = true
    · exact Or.inr ⟨[], d, tl, by simp, fun c hc => by simp at hc, hd, by simp⟩
    · rw [Bool.not_eq_true] at hd
      rcases ih with h | ⟨a1, c, a2, heq, h1, h2, h3⟩
      · refine Or.inl ?_
        intro c hc
        rcases List.mem_cons.mp hc with rfl | hc
        · exact hd
        · exact h c hc
      · refine Or.inr ⟨d :: a1, c, a2, by simp [heq], ?_, h2, ?_⟩
        · intro x hx
          rcases List.mem_cons.mp hx with rfl | hx
          · exact hd
          · exact h1 x hx
        · simp only [List.length_cons]
          omega

/-- Joining the split of a newline-terminated string recovers the string
without the final newline, provided all its breaks are plain newlines. -/
theorem pyJoin_splitlines_bounded : ∀ (N : Nat) (a : Str), a.length ≤ N →
    onlyNL a → pyJoin nl (splitlines (a ++ nl)) = a := by
  intro N
  induction N with
  | zero =>
    intro a ha _
    have hnil : a = [] := List.eq_nil_of_length_eq_zero (Nat.le_zero.mp ha)
    subst hnil
    rfl
  | succ m ih =>
    intro a ha hon
    rcases first_LB a with h | ⟨a1, c, a2, heq, h1, h2, h3⟩
    · rw [show a ++ nl = a ++ '\n' :: [] from rfl, splitlines_append_nl h []]
      rfl
    · have hc : c = '\n' := hon c (by rw [heq]; simp) h2
      subst hc
      rw [heq]
      rw [show (a1 ++ '\n' :: a2) ++ nl = a1 ++ '\n' :: (a2 ++ nl) by simp]
      rw [splitlines_append_nl h1]
      have hne : splitlines (a2 ++ nl) ≠ [] := splitlines_ne_nil (by simp [nl])
      rw [pyJoin_cons_ne hne]
      rw [heq] at ha
      have hlen : a2.length ≤ m := by
        rw [heq] at h3
        simp only [List.length_append, List.length_cons] at ha h3
        omega
      rw [ih a2 hlen (fun x hx hl => hon x (by rw [heq]; simp [hx]) hl)]
      simp [nl]

theorem pyJoin_splitlines {a : Str} (h : onlyNL a) :
    pyJoin nl (splitlines (a ++ nl)) = a :=
  pyJoin_splitlines_bounded a.length a le_rfl h

/-- A nonempty element list whose members use only plain newlines
flattens to a newline-terminated string. -/
theorem flatJoin_decomp : ∀ (out : List Str), (∀ l ∈ out, onlyNL l) →
    out ≠ [] → ∃ a, flatJoin out = a ++ nl ∧ onlyNL a := by
  intro out
  induction out with
  | nil => intro _ h; exact absurd rfl h
  | cons x xs ih =>
    intro hel _
    cases xs with
    | nil => exact ⟨x, by simp [flatJoin], hel x (by simp)⟩
    | cons y ys =>
      obtain ⟨a, hfa, hoa⟩ := ih (fun l hl => hel l (by simp [hl])) (by simp)
      refine ⟨x ++ '\n' :: a, ?_, ?_⟩
      · show x ++ nl ++ flatJoin (y :: ys) = _
        rw [hfa]
        simp [nl]
      · intro c hc hlb
        rcases List.mem_append.mp hc with hc | hc
        · exact hel x (by simp) c hc hlb
        · rcases List.mem_cons.mp hc with rfl | hc
          · rfl
          · exact hoa c hc hlb

/-! ### The flattened output of one pass is an augmented line list -/

theorem AugOut_elems_onlyNL : ∀ {out : List Str}, AugOut out →
    ∀ l ∈ out, onlyNL l := by
  intro out h
  induction h with
  | nil => intro l hl; simp at hl
  | plain l out hchk hl _ ih =>
    intro x hx
    rcases List.mem_cons.mp hx with rfl | hx
    · exact onlyNL_of_noLB hl
    · exact ih x hx
  | hdrInj h b1 brest out hmd hh hbl hsw hb1 _ ih =>
    intro x hx
    rcases List.mem_cons.mp hx with rfl | hx
    · exact onlyNL_of_noLB hh
    · rcases List.mem_cons.mp hx with rfl | hx
      · intro c hc hlb
        rcases List.mem_append.mp hc with hc | hc
        · rcases List.mem_append.mp hc with hc | hc
          · rcases pyJoin_mem hc with hc | ⟨w, hw, hcw⟩
            · simpa [nl] using hc
            · rw [(hbl w hw).2 c hcw] at hlb
              exact absurd hlb (by simp)
          · simpa [nl] using hc
        · simpa [nl] using hc
      · exact ih x hx
  | hdrSup h ws L out3 hmd hh hws hLne hsw hL _ ih =>
    intro x hx
    rcases List.mem_cons.mp hx with rfl | hx
    · exact onlyNL_of_noLB hh
    · exact ih x hx

/-- Dropping a trailing empty element preserves the output shape. -/
theorem AugOut_dropLast_blank : ∀ {out : List Str}, AugOut out →
    out.getLast? = some [] → AugOut out.dropLast := by
  intro out h
  induction h with
  | nil => intro hlast; simp at hlast
  | plain l out hchk hl haug ih =>
    intro hlast
    cases out with
    | nil => exact AugOut.nil
    | cons y ys =>
      rw [List.getLast?_cons_cons] at hlast
      rw [List.dropLast_cons₂]
      exact AugOut.plain l _ hchk hl (ih hlast)
  | hdrInj h b1 brest out hmd hh hbl hsw hb1 haug ih =>
    intro hlast
    cases out with
    | nil =>
      rw [List.getLast?_cons_cons] at hlast
      simp [nl] at hlast
    | cons y ys =>
      rw [List.getLast?_cons_cons, List.getLast?_cons_cons] at hlast
      rw [List.dropLast_cons₂, List.dropLast_cons₂]
      exact AugOut.hdrInj h b1 brest _ hmd hh hbl hsw hb1 (ih hlast)
  | hdrSup h ws L out3 hmd hh hws hLne hsw hL haug ih =>
    intro hlast
    cases out3 with
    | nil =>
      exfalso
      have hgl : (h :: (ws ++ [L])).getLast? = some L := by
        rw [show h :: (ws ++ [L]) = (h :: ws) ++ [L] from rfl]
        exact List.getLast?_concat _
      rw [hgl] at hlast
      have hLnil : L = [] := Option.some.inj hlast
      rw [hLnil] at hLne
      exact hLne rfl
    | cons y ys =>
      have hXne : ws ++ L :: y :: ys ≠ [] := by simp
      have hg : (ws ++ L :: y :: ys).getLast? = some [] := by
        rw [show h :: (ws ++ L :: y :: ys) = [h] ++ (ws ++ L :: y :: ys) from rfl,
          List.getLast?_append_of_ne_nil _ hXne] at hlast
        exact hlast
      have hd := ih hg
      rw [List.dropLast_append_of_ne_nil _ (show L :: y :: ys ≠ [] by simp),
        List.dropLast_cons₂] at hd
      rw [show h :: (ws ++ L :: y :: ys) = [h] ++ (ws ++ L :: y :: ys) from rfl,
        List.dropLast_append_of_ne_nil _ hXne,
        List.dropLast_append_of_ne_nil _ (show L :: y :: ys ≠ [] by simp),
        List.dropLast_cons₂]
      exact AugOut.hdrSup h ws L _ hmd hh hws hLne hsw hL hd

/-- Splitting the flattened output of one pass yields an augmented line
list: every line either fails to classify, or is a markdown heading whose
next non-blank line starts with the metadata marker. -/
theorem AugOut_AugLines : ∀ {out : List Str}, AugOut out →
    AugLines (splitlines (flatJoin out)) := by
  intro out h
  induction h with
  | nil => trivial
  | plain l out hchk hl _ ih =>
    rw [splitlines_flatJoin_cons hl]
    exact ⟨Or.inl hchk, ih⟩
  | hdrInj h b1 brest out hmd hh hbl hsw hb1 _ ih =>
    rw [splitlines_flatJoin_cons hh,
      show flatJoin ((pyJoin nl (b1 :: brest) ++ nl ++ nl) :: out) =
        flatJoin ((b1 :: brest) ++ [] :: [] :: out) from
          flatJoin_block _ (by simp) out,
      splitlines_flatJoin_front (fun w hw => (hbl w hw).2),
      splitlines_flatJoin_cons (fun c hc => absurd hc (List.not_mem_nil c)),
      splitlines_flatJoin_cons (fun c hc => absurd hc (List.not_mem_nil c))]
    refine ⟨Or.inr ⟨hmd, ?_⟩, ?_⟩
    · show startswith (next_nonempty
        (b1 :: (brest ++ [] :: [] :: splitlines (flatJoin out)))) _ = true
      rw [show next_nonempty
          (b1 :: (brest ++ [] :: [] :: splitlines (flatJoin out))) = strip b1 by
        simp only [next_nonempty]
        rw [if_pos hb1]]
      exact hsw
    · refine AugLines_append_none (fun x hx => (hbl x hx).1) ?_
      exact ⟨Or.inl check_none_nil, Or.inl check_none_nil, ih⟩
  | hdrSup h ws L out3 hmd hh hws hLne hsw hL _ ih =>
    rw [splitlines_flatJoin_cons hh]
    refine ⟨Or.inr ⟨hmd, ?_⟩, ih⟩
    rw [splitlines_flatJoin_front (fun w hw => (hws w hw).2),
      splitlines_flatJoin_cons hL,
      next_nonempty_append_blanks (fun w hw => (hws w hw).1) hLne]
    exact hsw

/-! ### The shape of an injected metadata block -/

theorem build_header_block_shape (dt p : Str) (b al : List Str)
    (hdt : noLB dt) (hp : noLB p) (hb : ∀ e ∈ b, noLB e)
    (hal : ∀ a ∈ al, noLB a) :
    ∃ brest,
      build_header_block dt p b al =
        pyJoin nl ((str "[DocTitle: " ++ dt ++ str "]") :: brest) ++ nl ++ nl ∧
      (∀ l ∈ (str "[DocTitle: " ++ dt ++ str "]") :: brest,
        check_header_patterns l = none ∧ noLB l) ∧
      startswith (strip (str "[DocTitle: " ++ dt ++ str "]"))
        (str "[DocTitle:") = true ∧
      strip (str "[DocTitle: " ++ dt ++ str "]") ≠ [] := by
  have hstrip : strip (str "[DocTitle: " ++ dt ++ str "]") =
      str "[DocTitle: " ++ dt ++ str "]" := by
    rw [show str "[DocTitle: " ++ dt ++ str "]" =
      '[' :: ((str "DocTitle: " ++ dt) ++ [']']) from rfl]
    exact strip_block_line _
  have hsw : startswith (strip (str "[DocTitle: " ++ dt ++ str "]"))
      (str "[DocTitle:") = true := by
    rw [hstrip, show str "[DocTitle: " ++ dt ++ str "]" =
      str "[DocTitle:" ++ (' ' :: (dt ++ str "]")) from rfl]
    exact startswith_append _ _
  have hne : strip (str "[DocTitle: " ++ dt ++ str "]") ≠ [] := by
    rw [hstrip, show str "[DocTitle: " ++ dt ++ str "]" =
      '[' :: ((str "DocTitle: " ++ dt) ++ [']']) from rfl]
    simp
  have hbstr : noLB (if b ≠ [] then pyJoin (str " > ") b else dt) := by
    split
    · exact noLB_pyJoin (noLB_of_all (by decide)) hb
    · exact hdt
  have hastr : noLB ((pyJoin (str ", ")
      (pySorted (dedup (al.filter (fun a => a ≠ []))))).take 120) := by
    refine noLB_take (noLB_pyJoin (noLB_of_all (by decide)) ?_)
    intro x hx
    exact hal x (List.mem_of_mem_filter (dedup_subset (pySorted_subset hx)))
  simp only [build_header_block]
  split
  · refine ⟨_, rfl, ?_, hsw, hne⟩
    intro l hl
    simp only [List.append_eq, List.cons_append, List.nil_append, List.mem_cons,
      List.not_mem_nil, or_false] at hl
    rcases hl with rfl | rfl | rfl | rfl
    · exact ⟨check_none_bracket_head _,
        noLB_append (noLB_append (noLB_of_all (by decide)) hdt)
          (noLB_of_all (by decide))⟩
    · exact ⟨check_none_bracket_head _,
        noLB_append (noLB_append (noLB_of_all (by decide)) hp)
          (noLB_of_all (by decide))⟩
    · exact ⟨check_none_bracket_head _,
        noLB_append (noLB_append (noLB_of_all (by decide)) hbstr)
          (noLB_of_all (by decide))⟩
    · exact ⟨check_none_bracket_head _,
        noLB_append (noLB_append (noLB_of_all (by decide)) hastr)
          (noLB_of_all (by decide))⟩
  · refine ⟨_, rfl, ?_, hsw, hne⟩
    intro l hl
    simp only [List.mem_cons, List.not_mem_nil, or_false] at hl
    rcases hl with rfl | rfl | rfl
    · exact ⟨check_none_bracket_head _,
        noLB_append (noLB_append (noLB_of_all (by decide)) hdt)
          (noLB_of_all (by decide))⟩
    · exact ⟨check_none_bracket_head _,
        noLB_append (noLB_append (noLB_of_all (by decide)) hp)
          (noLB_of_all (by decide))⟩
    · exact ⟨check_none_bracket_head _,
        noLB_append (noLB_append (noLB_of_all (by decide)) hbstr)
          (noLB_of_all (by decide))⟩

theorem processLines_cons_none {l : Str} (hl : check_header_patterns l = none)
    (rest b : List Str) (dt p : Str) :
    processLines (l :: rest) b dt p =
      (l :: (processLines rest b dt p).1, (processLines rest b dt p).2) := by
  simp only [processLines, resolved_none_of_check b rest hl]

theorem update_breadcrumb_mem (b : List Str) (dt text : Str) (level : Nat)
    (e : Str) (he : e ∈ (update_breadcrumb b dt level text).1) :
    e = text ∨ e = dt ∨ e ∈ b := by
  unfold update_breadcrumb at he
  by_cases h1 : level = 1
  · rw [if_pos h1] at he
    dsimp only at he
    have h := List.mem_singleton.mp he
    split at h
    · exact Or.inl h
    · exact Or.inr (Or.inl h)
  · rw [if_neg h1] at he
    dsimp only at he
    rcases List.mem_append.mp he with he2 | he2
    · exact Or.inr (Or.inr (pop_while_ge_subset he2))
    · exact Or.inl (List.mem_singleton.mp he2)

theorem update_breadcrumb_dt (b : List Str) (dt text : Str) (level : Nat) :
    (update_breadcrumb b dt level text).2 = text ∨
      (update_breadcrumb b dt level text).2 = dt := by
  unfold update_breadcrumb
  by_cases h1 : level = 1
  · rw [if_pos h1]
    dsimp only
    split
    · exact Or.inl rfl
    · exact Or.inr rfl
  · rw [if_neg h1]
    exact Or.inr rfl

/-- Master invariant: on line-break-free input lines (and states), the
rewriter's `out` list has the augmented shape described by `AugOut`. -/
theorem processLines_AugOut :
    ∀ (ls : List Str), (∀ l ∈ ls, noLB l) →
    ∀ (b : List Str), (∀ e ∈ b, noLB e) → ∀ (dt : Str), noLB dt →
    ∀ (p : Str), noLB p → AugOut (processLines ls b dt p).1 := by
  intro ls
  induction ls with
  | nil => intro _ b _ dt _ p _; exact AugOut.nil
  | cons line rest ih =>
    intro hls b hb dt hdt p hp
    have hline : noLB line := hls line (by simp)
    have hrest : ∀ l ∈ rest, noLB l := fun l hl => hls l (by simp [hl])
    cases hres : resolved line b rest with
    | none =>
      simp only [processLines, hres]
      exact AugOut.plain line _ (resolved_none_check hres) hline
        (ih hrest b hb dt hdt p hp)
    | some v =>
      obtain ⟨pt, text, level⟩ := v
      obtain ⟨n, hchk, hlv⟩ := resolved_inv hres
      have htext : noLB text := check_text_noLB hline hchk
      have hb2 : ∀ e ∈ (update_breadcrumb b dt level text).1, noLB e := by
        intro e he
        rcases update_breadcrumb_mem b dt text level e he with rfl | rfl | he2
        · exact htext
        · exact hdt
        · exact hb e he2
      have hdt2 : noLB (update_breadcrumb b dt level text).2 := by
        rcases update_breadcrumb_dt b dt text level with h | h <;> rw [h]
        · exact htext
        · exact hdt
      have hhdr : (∃ t2 n2, check_header_patterns
            (if pt = PatternType.markdown then line
             else convert_to_proper_header text level pt) =
              some (.markdown, t2, n2)) ∧
          noLB (if pt = PatternType.markdown then line
             else convert_to_proper_header text level pt) := by
        by_cases hm : pt = PatternType.markdown
        · rw [if_pos hm]
          exact ⟨⟨text, n, hm ▸ hchk⟩, hline⟩
        · rw [if_neg hm]
          obtain ⟨t2, hcv, hsub⟩ := convert_to_proper_header_shape text level pt
          have hbd := level_for_bounds hm text n b rest
          rw [← hlv] at hbd
          constructor
          · rw [hcv]
            exact ⟨_, _, check_md_header level hbd.1 hbd.2 t2⟩
          · rw [hcv]
            intro c hc
            rcases List.mem_append.mp hc with hc | hc
            · exact noLB_replicate_hash level c hc
            · rcases List.mem_cons.mp hc with rfl | hc
              · decide
              · exact htext c (hsub c hc)
      obtain ⟨hhdr1, hhdr2⟩ := hhdr
      by_cases hinj : startswith (next_nonempty rest) (str "[DocTitle:") = true
      · obtain ⟨ws, l, rest2, hrdec, hwsblank, hlne, hlnn⟩ :=
          next_nonempty_decomp (startswith_ne_nil hinj)
        have hlchk : check_header_patterns l = none :=
          check_none_of_strip_bracket (by rw [hlnn]; exact hinj)
        have hwschk : ∀ w ∈ ws, check_header_patterns w = none :=
          fun w hw => check_none_of_strip_empty (hwsblank w hw)
        simp only [processLines, hres]
        rw [if_pos hinj]
        have hIH := ih hrest _ hb2 _ hdt2 p hp
        rw [hrdec] at hIH ⊢
        rw [processLines_passthrough ws hwschk (l :: rest2) _ _ p,
          processLines_cons_none hlchk rest2 _ _ p] at hIH ⊢
        dsimp only at hIH ⊢
        exact AugOut.hdrSup _ ws l _ hhdr1 hhdr2
          (fun w hw => ⟨hwsblank w hw,
            hrest w (by rw [hrdec]; exact List.mem_append_left _ hw)⟩)
          hlne (by rw [hlnn]; exact hinj)
          (hrest l (by rw [hrdec]; simp))
          hIH
      · simp only [processLines, hres]
        rw [if_neg hinj]
        obtain ⟨brest, hbeq, hbprops, hbsw, hbne⟩ :=
          build_header_block_shape (update_breadcrumb b dt level text).2 p
            (update_breadcrumb b dt level text).1
            (guess_aliases_from_heading text)
            hdt2 hp hb2 (guess_aliases_noLB htext)
        rw [hbeq]
        exact AugOut.hdrInj _ _ brest _ hhdr1 hhdr2 hbprops hbsw hbne
          (ih hrest _ hb2 _ hdt2 p hp)

/-- Every rewriter output is the newline-terminated flattening of an
augmented element list. -/
theorem process_markdown_flat (D p t : Str) (hp : noLB p) (ht : noLB t) :
    ∃ out2, AugOut out2 ∧ process_markdown D p t = flatJoin out2 := by
  have hout1 : AugOut (processLines (splitlines D) [] t p).1 :=
    processLines_AugOut (splitlines D) (fun l hl => splitlines_noLB_members l hl)
      [] (fun e he => absurd he (List.not_mem_nil e)) t ht p hp
  by_cases hnil : (processLines (splitlines D) [] t p).1 = []
  · refine ⟨[[]], ?_, ?_⟩
    · exact AugOut.plain [] [] check_none_nil
        (fun c hc => absurd hc (List.not_mem_nil c)) AugOut.nil
    · unfold process_markdown joinFix
      rw [hnil]
      decide
  · by_cases hlast : (processLines (splitlines D) [] t p).1.getLast? = some []
    · refine ⟨(processLines (splitlines D) [] t p).1.dropLast,
        AugOut_dropLast_blank hout1 hlast, ?_⟩
      unfold process_markdown joinFix
      rw [if_neg (by push_neg; exact ⟨hnil, hlast⟩), List.append_nil]
      obtain ⟨front, hfront⟩ := List.getLast?_eq_some_iff.mp hlast
      rw [hfront]
      by_cases hfne : front = []
      · subst hfne
        decide
      · rw [pyJoin_concat_empty front hfne, pyJoin_append_nl front hfne,
          List.dropLast_concat]
    · refine ⟨(processLines (splitlines D) [] t p).1, hout1, ?_⟩
      unfold process_markdown joinFix
      rw [if_pos (Or.inr hlast), pyJoin_append_nl _ hnil]

/-- C2, counterexample: the rewriter is not idempotent.  On the input
"x\n\n\n" the first pass returns "x\n\n" and the second pass returns
"x\n": the final join appends a newline only when the last line is
nonempty, so each pass drops one trailing blank line. -/
theorem C2_counterexample :
    process_markdown (process_markdown (str "x\n\n\n") (str "p") (str "d"))
        (str "p") (str "d") ≠
      process_markdown (str "x\n\n\n") (str "p") (str "d") := by
  decide

/-- C2, amended: with line-break-free path and fallback title, a second
pass never reclassifies a line and never injects another metadata block —
it equals the trailing-newline renormalisation `joinFix ∘ splitlines` of
the first pass's output; in particular the rewriter is exactly idempotent
whenever the first output's line list is nonempty and its last line is
nonempty. -/
theorem C2_idempotent_mod_trailing (D p t : Str) (hp : noLB p) (ht : noLB t) :
    process_markdown (process_markdown D p t) p t =
      joinFix (splitlines (process_markdown D p t)) ∧
    (splitlines (process_markdown D p t) ≠ [] →
      (splitlines (process_markdown D p t)).getLast? ≠ some [] →
      process_markdown (process_markdown D p t) p t =
        process_markdown D p t) := by
  obtain ⟨out2, haug2, heq⟩ := process_markdown_flat D p t hp ht
  have haugL : AugLines (splitlines (process_markdown D p t)) := by
    rw [heq]
    exact AugOut_AugLines haug2
  have hfix : (processLines (splitlines (process_markdown D p t)) [] t p).1 =
      splitlines (process_markdown D p t) :=
    processLines_fix_aug _ haugL [] t p
  have hmain : process_markdown (process_markdown D p t) p t =
      joinFix (splitlines (process_markdown D p t)) := by
    show joinFix (processLines (splitlines (process_markdown D p t)) [] t p).1 = _
    rw [hfix]
  refine ⟨hmain, fun hne hlast => ?_⟩
  rw [hmain]
  unfold joinFix
  rw [if_pos (Or.inr hlast)]
  by_cases hnil2 : out2 = []
  · subst hnil2
    rw [heq] at hne
    exact absurd rfl hne
  · obtain ⟨a, hfa, hona⟩ := flatJoin_decomp out2 (AugOut_elems_onlyNL haug2) hnil2
    rw [heq, hfa, pyJoin_splitlines hona]

/-- Witness for C2 at a concrete document, path and fallback title. -/
theorem C2_idempotent_mod_trailing_witness :
    (process_markdown (process_markdown (str "x\n\n\n") (str "p") (str "d"))
        (str "p") (str "d") =
      joinFix (splitlines
        (process_markdown (str "x\n\n\n") (str "p") (str "d")))) ∧
    (splitlines (process_markdown (str "x\n\n\n") (str "p") (str "d")) ≠ [] →
      (splitlines
          (process_markdown (str "x\n\n\n") (str "p") (str "d"))).getLast? ≠
        some [] →
      process_markdown (process_markdown (str "x\n\n\n") (str "p") (str "d"))
          (str "p") (str "d") =
        process_markdown (str "x\n\n\n") (str "p") (str "d")) :=
  C2_idempotent_mod_trailing (str "x\n\n\n") (str "p") (str "d")
    (noLB_of_all (by decide)) (noLB_of_all (by decide))

/-- Witness for C10 at a concrete numbered heading. -/
theorem C10_numbered_heading_witness :
    ((update_breadcrumb [str "A"] (str "d") 2 (str "12. Hello")).1).getLast? =
      some (str "12. Hello") :=
  (C10_numbered_heading (str "12. Hello") (str "12. Hello") 0 (by decide)).2.2.2.1
    [str "A"] (str "d") 2 (by decide)

end Augment
